import Mathlib

/-!
Verification development for the text-humanization pipeline of the
Humanizer-Ai repository (file `src/pages/humanize_text.py`).

Strings are modelled as `List Char`.  The Python regular expressions of the
source are hand-compiled into executable matchers that reproduce the
backtracking (leftmost match, greedy / lazy quantifier priority) semantics of
the `re` module.  The external collaborators of the pipeline (NLTK sentence
and word segmentation, the spaCy tagger, the WordNet synonym database, the
random number generator) are not part of the repository; they are either
modelled from the specification or passed as explicit parameters.
-/

namespace Humanizer

/-- Strings of the source program, modelled as lists of characters. -/
abbrev Str := List Char

/-- Apostrophe character, written via its code point. -/
def apC : Char := Char.ofNat 39

/-- Backquote character, written via its code point. -/
def bqC : Char := Char.ofNat 96

/-- Helper building a string containing one apostrophe: `apw a b` is
`a + apostrophe + b`. -/
def apw (a b : String) : Str := a.toList ++ apC :: b.toList

/-- Opening tokenizer quote marker, two backquotes. -/
def qopen : Str := [bqC, bqC]

/-- Closing tokenizer quote marker, two apostrophes. -/
def qclose : Str := [apC, apC]

/-- Whitespace class of Python regular expressions (the characters matched by
the class backslash-s, restricted to ASCII). -/
def pySpace (c : Char) : Bool :=
  c = ' ' || c = '\t' || c = '\n' || c = '\x0d' || c = Char.ofNat 11 || c = Char.ofNat 12

/-- Space or tab, the class written as a bracket of space and tab in the
cleanup regular expressions of the source. -/
def hTab (c : Char) : Bool := c = ' ' || c = '\t'

/-- Character class of the citation regular expression of the source:
letters, ampersand, hyphen, comma, dot and whitespace. -/
def citCls (c : Char) : Bool :=
  c.isAlpha || c = '&' || c = '-' || c = ',' || c = '.' || pySpace c

/-- Substring test: `substr p t` holds when `p` occurs contiguously in `t`. -/
def substr (p : Str) : Str → Bool
  | [] => p.isPrefixOf []
  | c :: r => p.isPrefixOf (c :: r) || substr p r

/-- Association lookup in a placeholder map, mirroring a Python dict lookup. -/
def alookup : List (Str × Str) → Str → Option Str
  | [], _ => none
  | (k, v) :: r, key => if k = key then some v else alookup r key

/-- Python str.lower restricted to ASCII, applied characterwise. -/
def lowerStr (s : Str) : Str := s.map Char.toLower

/-- Python str.capitalize: first character uppercased, the rest lowercased. -/
def pyCapitalize : Str → Str
  | [] => []
  | c :: r => c.toUpper :: r.map Char.toLower

/-- Python str.strip with respect to the modelled whitespace class. -/
def pyStrip (s : Str) : Str :=
  ((s.dropWhile pySpace).reverse.dropWhile pySpace).reverse

/-- Join of a list of strings with a single space, Python join on a space. -/
def joinSpace (l : List Str) : Str := (l.intersperse [' ']).flatten

/-- Join of a list of strings with a single newline. -/
def joinNl (l : List Str) : Str := (l.intersperse ['\n']).flatten

/-- Decimal digit character for a digit value below ten. -/
def digitChar (d : Nat) : Char :=
  if d = 0 then '0' else if d = 1 then '1' else if d = 2 then '2'
  else if d = 3 then '3' else if d = 4 then '4' else if d = 5 then '5'
  else if d = 6 then '6' else if d = 7 then '7' else if d = 8 then '8' else '9'

/-- Numeric value of a decimal digit character. -/
def digitVal (c : Char) : Nat := c.toNat - 48

/-- Fuelled decimal rendering of a natural number, most significant digit
first, mirroring the Python str conversion used to build placeholders. -/
def natDecimalAux : Nat → Nat → Str
  | 0, _ => []
  | f + 1, n => if n < 10 then [digitChar n] else natDecimalAux f (n / 10) ++ [digitChar (n % 10)]

/-- Decimal rendering of a natural number. -/
def natDecimal (n : Nat) : Str := natDecimalAux (n + 1) n

/-- Numeric value of a decimal digit string, most significant digit first. -/
def strToNat (s : Str) : Nat := s.foldl (fun a c => 10 * a + digitVal c) 0

/-!  Generic driver reproducing the scan of Python re.sub: at every position
the matcher `f` is tried; on success it yields the replacement text and the
rest of the input after the match, and scanning resumes there; on failure one
character is copied and scanning moves on.  The matchers used below always
consume at least one character, so fuel equal to the length of the input
suffices. -/

/-- Fuelled substitution scanner. -/
def subScanF (f : Str → Option (Str × Str)) : Nat → Str → Str
  | 0, s => s
  | _, [] => []
  | fl + 1, c :: r =>
    match f (c :: r) with
    | some (rep, rest) => rep ++ subScanF f fl rest
    | none => c :: subScanF f fl r

/-- Substitution scanner with sufficient fuel. -/
def subScan (f : Str → Option (Str × Str)) (s : Str) : Str := subScanF f s.length s

/-!  Backtracking matcher combinators.  A matcher maps the remaining input to
the list of possible rests after a match, in the priority order explored by
the backtracking engine of the Python re module; the head of the list for the
whole pattern is the match the engine commits to. -/

/-- Matchers return candidate rests in priority order. -/
abbrev MatchM := Str → List Str

/-- Sequencing of matchers, depth first in priority order. -/
def mseq (a b : MatchM) : MatchM := fun s => (a s).flatMap b

/-- Literal string matcher. -/
def mlit (l : Str) : MatchM := fun s => if l.isPrefixOf s then [s.drop l.length] else []

/-- Greedy star over a character class: longest consumption first. -/
def mstar (p : Char → Bool) : MatchM := fun s =>
  let run := (s.takeWhile p).length
  (List.range (run + 1)).map (fun i => s.drop (run - i))

/-- Greedy plus over a character class: at least one character. -/
def mplus (p : Char → Bool) : MatchM
  | [] => []
  | c :: r => if p c then (mstar p r) else []

/-- Greedy option: try the inner matcher first, then the empty match. -/
def mopt (a : MatchM) : MatchM := fun s => a s ++ [s]

/-- Exactly `n` characters of a class. -/
def mrep (p : Char → Bool) : Nat → MatchM
  | 0, s => [s]
  | _ + 1, [] => []
  | n + 1, c :: r => if p c then mrep p n r else []

/-- Matcher for the page fragment of the citation pattern: a comma, optional
whitespace, p or pp, a dot, optional whitespace, digits and an optional
hyphenated digit range. -/
def pagesM : MatchM :=
  mseq (mlit [','])
    (mseq (mstar pySpace)
      (mseq (mlit ['p'])
        (mseq (mopt (mlit ['p']))
          (mseq (mlit ['.'])
            (mseq (mstar pySpace)
              (mseq (mplus Char.isDigit)
                (mopt (mseq (mlit ['-']) (mplus Char.isDigit)))))))))

/-- Hand-compiled matcher for CITATION_REGEX of the source: an opening
parenthesis, optional whitespace, one or more citation-class characters, an
optional et-al fragment, a comma, optional whitespace, a four-digit year, an
optional page fragment, optional whitespace and a closing parenthesis. -/
def citM : MatchM :=
  mseq (mlit ['('])
    (mseq (mstar pySpace)
      (mseq (mplus citCls)
        (mseq (mopt (mseq (mlit "et al.".toList) (mstar pySpace)))
          (mseq (mlit [','])
            (mseq (mstar pySpace)
              (mseq (mrep Char.isDigit 4)
                (mseq (mopt pagesM)
                  (mseq (mstar pySpace) (mlit [')'])))))))))

/-- Length of the citation match committed to at the current position, when
one exists: the first success in backtracking priority order. -/
def matchCitAt (s : Str) : Option Nat :=
  match citM s with
  | [] => none
  | r :: _ => some (s.length - r.length)

/-- Fuelled left-to-right scan returning all non-overlapping citation
matches, reproducing Python re.findall. -/
def citFindallF : Nat → Str → List Str
  | 0, _ => []
  | _, [] => []
  | fl + 1, c :: r =>
    match matchCitAt (c :: r) with
    | some L =>
      if L = 0 then citFindallF fl r
      else (c :: r).take L :: citFindallF fl ((c :: r).drop L)
    | none => citFindallF fl r

/-- All non-overlapping citation matches of a text, in scan order. -/
def citFindall (s : Str) : List Str := citFindallF s.length s

/-- Placeholder string for the i-th citation, double brackets around REF and
a decimal index. -/
def placeholder (i : Nat) : Str := "[[REF_".toList ++ natDecimal i ++ "]]".toList

/-- Python str.replace with count one: the leftmost occurrence of `old` is
replaced by `new`; absent occurrences leave the text unchanged. -/
def replaceFirst (old new : Str) : Str → Str
  | [] => if old = [] then new else []
  | c :: r =>
    if old.isPrefixOf (c :: r) then new ++ (c :: r).drop old.length
    else c :: replaceFirst old new r

/-- Translation of extract_citations of the source: find all citation
matches, then for the i-th match (numbering from one) replace its first
remaining occurrence in the working text with the i-th placeholder while
recording the pair in the placeholder map, in insertion order. -/
def extract_citations (text : Str) : Str × List (Str × Str) :=
  let idxd := List.enumFrom 1 (citFindall text)
  (idxd.foldl (fun t p => replaceFirst p.2 (placeholder p.1) t) text,
   idxd.map (fun p => (placeholder p.1, p.2)))

/-- Deterministic parse of PLACEHOLDER_REGEX of the source at the current
position: an opening bracket, optional whitespace, a second opening bracket,
optional whitespace, the literal REF underscore, one or more digits, optional
whitespace, a closing bracket, optional whitespace and a second closing
bracket.  Returns the captured digit string and the rest after the match.
Every quantifier here is forced, so no backtracking is needed. -/
def phParse (s : Str) : Option (Str × Str) :=
  match s with
  | [] => none
  | c0 :: r1 =>
    if c0 = '[' then
      match r1.dropWhile pySpace with
      | [] => none
      | c1 :: r3 =>
        if c1 = '[' then
          if "REF_".toList.isPrefixOf (r3.dropWhile pySpace) then
            if ((r3.dropWhile pySpace).drop 4).takeWhile Char.isDigit = [] then none
            else
              match ((((r3.dropWhile pySpace).drop 4).drop
                  ((((r3.dropWhile pySpace).drop 4).takeWhile Char.isDigit).length)).dropWhile
                    pySpace) with
              | [] => none
              | c2 :: r8 =>
                if c2 = ']' then
                  match r8.dropWhile pySpace with
                  | [] => none
                  | c3 :: r10 =>
                    if c3 = ']' then
                      some (((r3.dropWhile pySpace).drop 4).takeWhile Char.isDigit, r10)
                    else none
                else none
          else none
        else none
    else none

/-- Per-position matcher of restore_citations: on a placeholder match, the
replacement is the mapped original citation when the reconstructed key is in
the map, and the matched text itself (unchanged) otherwise. -/
def restoreF (pm : List (Str × Str)) (s : Str) : Option (Str × Str) :=
  match phParse s with
  | some (ds, rest) =>
    some ((alookup pm ("[[REF_".toList ++ ds ++ "]]".toList)).getD
      (s.take (s.length - rest.length)), rest)
  | none => none

/-- Translation of restore_citations of the source: the substitution scan of
PLACEHOLDER_REGEX with the map-driven replacement. -/
def restore_citations (text : Str) (pm : List (Str × Str)) : Str :=
  subScan (restoreF pm) text

/-- Property of a substitution matcher: every match consumes at least one
character. -/
def Consumes (f : Str → Option (Str × Str)) : Prop :=
  ∀ s p, f s = some p → p.2.length < s.length

/-- Test whether the first character of a string is an uppercase letter,
mirroring the Python guard word and word-first-isupper. -/
def headUpper : Str → Bool
  | [] => false
  | c :: _ => c.isUpper

/-- Test whether a string ends with the given suffix string. -/
def endsW (s suf : Str) : Bool :=
  decide (suf.length ≤ s.length) && decide (s.drop (s.length - suf.length) = suf)

/-- Whole-word contraction table of the source, in insertion order. -/
def WHOLE_CONTRACTIONS : List (Str × Str) :=
  [ (apw "can" "t", "cannot".toList),
    (apw "won" "t", "will not".toList),
    (apw "shan" "t", "shall not".toList),
    (apw "ain" "t", "is not".toList),
    (apw "i" "m", "i am".toList),
    (apw "it" "s", "it is".toList),
    (apw "we" "re", "we are".toList),
    (apw "they" "re", "they are".toList),
    (apw "you" "re", "you are".toList),
    (apw "he" "s", "he is".toList),
    (apw "she" "s", "she is".toList),
    (apw "that" "s", "that is".toList),
    (apw "there" "s", "there is".toList),
    (apw "what" "s", "what is".toList),
    (apw "who" "s", "who is".toList),
    (apw "let" "s", "let us".toList),
    (apw "didn" "t", "did not".toList),
    (apw "doesn" "t", "does not".toList),
    (apw "don" "t", "do not".toList),
    (apw "couldn" "t", "could not".toList),
    (apw "shouldn" "t", "should not".toList),
    (apw "wouldn" "t", "would not".toList),
    (apw "isn" "t", "is not".toList),
    (apw "aren" "t", "are not".toList),
    (apw "weren" "t", "were not".toList),
    (apw "hasn" "t", "has not".toList),
    (apw "haven" "t", "have not".toList),
    (apw "hadn" "t", "had not".toList) ]

/-- Suffix contraction table of the source, in insertion order. -/
def SUFFIX_CONTRACTIONS : List (Str × Str) :=
  [ (apw "n" "t", " not".toList),
    (apw "" "re", " are".toList),
    (apw "" "s", " is".toList),
    (apw "" "ll", " will".toList),
    (apw "" "ve", " have".toList),
    (apw "" "d", " would".toList),
    (apw "" "m", " am".toList) ]

/-- Academic transition list of the source, in order. -/
def ACADEMIC_TRANSITIONS : List Str :=
  [ "Moreover,".toList, "Additionally,".toList, "Furthermore,".toList,
    "Hence,".toList, "Therefore,".toList, "Consequently,".toList,
    "Nonetheless,".toList, "Nevertheless,".toList, "In contrast,".toList,
    "On the other hand,".toList, "In addition,".toList, "As a result,".toList ]

/-- Case-insensitive match of a whole-word contraction key at the current
position, keys tried in table order as by the alternation of the compiled
pattern; returns the matched original text, the table expansion and the rest
of the input. -/
def wcWordAt (s : Str) : Option (Str × Str × Str) :=
  WHOLE_CONTRACTIONS.findSome? (fun kv =>
    if lowerStr (s.take kv.1.length) = kv.1 then
      some (s.take kv.1.length, kv.2, s.drop kv.1.length)
    else none)

/-- Optional closing-quote part of the whole-word pattern: whitespace then a
closing quote marker is consumed when present (the whitespace is consumed by
the match but not reproduced), otherwise nothing is consumed.  Fewer than the
maximal whitespace characters can never be followed by the marker, so only
the greedy branch is relevant. -/
def wcCloseAt (s : Str) : Str × Str :=
  let w := (s.takeWhile pySpace).length
  if qclose.isPrefixOf (s.drop w) then (qclose, (s.drop w).drop 2) else ([], s)

/-- Single attempted match of the whole-word contraction pattern of the
source at the current position: an optional opening quote marker with
following whitespace, a contraction key matched case-insensitively, and an
optional closing quote part.  The replacement preserves the quote markers and
capitalizes the expansion when the matched word starts uppercase. -/
def wcTryAt (s : Str) : Option (Str × Str) :=
  let core := fun (openTok : Str) (s2 : Str) =>
    (wcWordAt s2).map (fun wer =>
      let repl := if headUpper wer.1 then pyCapitalize wer.2.1 else wer.2.1
      let cl := wcCloseAt wer.2.2
      (openTok ++ repl ++ cl.1, cl.2))
  if qopen.isPrefixOf s then
    match core qopen ((s.drop 2).dropWhile pySpace) with
    | some res => some res
    | none => core [] s
  else core [] s

/-- Whole-word contraction pass of expand_contractions: the substitution of
the compiled whole-word pattern over the raw sentence. -/
def wholeSub (s : Str) : Str := subScan wcTryAt s

/-- Modelled from the spec: the word segmentation collaborator (NLTK
word_tokenize) is external to the repository; the specification only requires
an ordered sequence of token strings, with contraction suffixes optionally
split.  This model splits on whitespace and keeps contraction suffixes
attached. -/
def splitWsAux : Str → Str → List Str
  | [], acc => if acc.isEmpty then [] else [acc.reverse]
  | c :: r, acc =>
    if pySpace c then
      if acc.isEmpty then splitWsAux r [] else acc.reverse :: splitWsAux r []
    else splitWsAux r (c :: acc)

/-- Modelled from the spec: word segmentation collaborator, see splitWsAux. -/
def word_tokenize (s : Str) : List Str := splitWsAux s []

/-- Test whether the head character of a string is whitespace. -/
def headSpace : Str → Bool
  | [] => false
  | c :: _ => pySpace c

/-- Modelled from the spec: the sentence segmentation collaborator (NLTK
sent_tokenize) is external to the repository; the specification only requires
an ordered sequence of sentence strings handling standard terminal
punctuation.  This model ends a sentence at terminal punctuation followed by
whitespace and trims leading whitespace of each sentence. -/
def sentSplitAux : Str → Str → List Str
  | [], acc => if acc.isEmpty then [] else [acc.reverse]
  | c :: r, acc =>
    if (c = '.' || c = '!' || c = '?') && headSpace r then
      (c :: acc).reverse :: sentSplitAux r []
    else sentSplitAux r (c :: acc)

/-- Modelled from the spec: sentence segmentation collaborator. -/
def sent_tokenize (s : Str) : List Str :=
  ((sentSplitAux s []).map (fun x => x.dropWhile pySpace)).filter (fun x => !x.isEmpty)

/-- Suffix fallback of expand_contractions applied to one token: the first
suffix of the table (in table order) that the lowercased token ends with is
stripped and replaced by its expansion; the base is taken from the lowercased
token and the leading capitalization of the original token is preserved. -/
def suffixTok (t : Str) : Str :=
  match SUFFIX_CONTRACTIONS.findSome? (fun kv => if endsW (lowerStr t) kv.1 then some kv else none) with
  | some kv =>
    if headUpper t then
      pyCapitalize ((lowerStr t).take ((lowerStr t).length - kv.1.length) ++ kv.2)
    else (lowerStr t).take ((lowerStr t).length - kv.1.length) ++ kv.2
  | none => t

/-- Translation of expand_contractions of the source: the whole-word pattern
substitution over the raw sentence, then word segmentation, the suffix
fallback on every token, and a join with single spaces. -/
def expand_contractions (s : Str) : Str :=
  joinSpace ((word_tokenize (wholeSub s)).map suffixTok)

/-- Token of the spaCy document: surface text and coarse part-of-speech tag,
the two attributes read by the source. -/
structure SpacyTok where
  text : Str
  pos : Str
deriving DecidableEq

/-- Type of the spaCy pipeline collaborator: a sentence is turned into an
ordered list of tokens with part-of-speech tags. -/
abbrev Nlp := Str → List SpacyTok

/-- WordNet collaborator: synsetsAny models the truthiness of the synsets
call without part-of-speech filter, lemmaNames models the lemma names of the
synsets filtered by a WordNet part-of-speech character. -/
structure Wordnet where
  synsetsAny : Str → Bool
  lemmaNames : Str → Char → List Str

/-- Random collaborator: real models successive values of random.random (a
rational in the unit interval), pick models successive uniform choices by
index. -/
structure Rng where
  real : Nat → ℚ
  pick : Nat → Nat

/-- Consumption state of the random collaborator: next index of a real draw
and next index of a choice. -/
structure RS where
  r : Nat
  c : Nat
deriving DecidableEq

/-- Open-class part-of-speech tags accepted by replace_synonyms. -/
def openPos : List Str :=
  ["ADJ".toList, "NOUN".toList, "VERB".toList, "ADV".toList]

/-- Citation placeholder marker whose presence in a token text makes
replace_synonyms skip the token. -/
def refMarker : Str := "[[REF_".toList

/-- Translation of get_synonyms of the source: the part-of-speech tag is
mapped to a WordNet part-of-speech character, lemma names are fetched for it,
underscores are replaced by spaces and lemma names case-insensitively equal
to the word are excluded.  The Python set of results is modelled as the list
in lemma order; only membership and emptiness of the result are used. -/
def get_synonyms (wn : Wordnet) (word : Str) (pos : Str) : List Str :=
  let wnPos : Option Char :=
    if "ADJ".toList.isPrefixOf pos then some 'a'
    else if "NOUN".toList.isPrefixOf pos then some 'n'
    else if "ADV".toList.isPrefixOf pos then some 'r'
    else if "VERB".toList.isPrefixOf pos then some 'v'
    else none
  match wnPos with
  | none => []
  | some p =>
    ((wn.lemmaNames word p).map
        (fun l => l.map (fun c => if c = '_' then ' ' else c))).filter
      (fun l => decide (¬ lowerStr l = lowerStr word))

/-- Per-token step of the loop of replace_synonyms, with the WordNet
collaborator present.  Tokens containing the placeholder marker are passed
through before anything else; open-class tokens with a non-empty synsets call
draw one random real, and on success a synonym is chosen if the filtered
synonym list is non-empty, otherwise the token is kept. -/
def synTok (wn : Wordnet) (rng : Rng) (psyn : ℚ) (t : SpacyTok) (st : RS) : Str × RS :=
  if substr refMarker t.text then (t.text, st)
  else if t.pos ∈ openPos && wn.synsetsAny t.text then
    if rng.real st.r < psyn then
      let syns := get_synonyms wn t.text t.pos
      if syns.isEmpty then (t.text, ⟨st.r + 1, st.c⟩)
      else (syns.getD (rng.pick st.c % syns.length) [], ⟨st.r + 1, st.c + 1⟩)
    else (t.text, ⟨st.r + 1, st.c⟩)
  else (t.text, st)

/-- Loop of replace_synonyms over the spaCy tokens, threading the random
state. -/
def synTokens (wn : Wordnet) (rng : Rng) (psyn : ℚ) : List SpacyTok → RS → List Str × RS
  | [], st => ([], st)
  | t :: ts, st =>
    let o := synTok wn rng psyn t st
    let os := synTokens wn rng psyn ts o.2
    (o.1 :: os.1, os.2)

/-- Translation of replace_synonyms of the source with both collaborators
present: the new tokens joined with single spaces. -/
def replace_synonyms (n : Nlp) (wn : Wordnet) (rng : Rng) (psyn : ℚ)
    (s : Str) (st : RS) : Str × RS :=
  let r := synTokens wn rng psyn (n s) st
  (joinSpace r.1, r.2)

/-- Per-token step of replace_synonyms with a possibly absent WordNet
collaborator.  The source guards only the spaCy pipeline; the synsets call on
an open-class token is unguarded, and per the LookupError try block at the
top of the source file an absent WordNet corpus raises LookupError, modelled
as an error. -/
def synTokE (wnDb : Option Wordnet) (rng : Rng) (psyn : ℚ) (t : SpacyTok)
    (st : RS) : Except Unit (Str × RS) :=
  if substr refMarker t.text then .ok (t.text, st)
  else if t.pos ∈ openPos then
    match wnDb with
    | none => .error ()
    | some wn =>
      if wn.synsetsAny t.text then
        if rng.real st.r < psyn then
          let syns := get_synonyms wn t.text t.pos
          if syns.isEmpty then .ok (t.text, ⟨st.r + 1, st.c⟩)
          else .ok (syns.getD (rng.pick st.c % syns.length) [], ⟨st.r + 1, st.c + 1⟩)
        else .ok (t.text, ⟨st.r + 1, st.c⟩)
      else .ok (t.text, st)
  else .ok (t.text, st)

/-- Loop of replace_synonyms over the spaCy tokens with a possibly absent
WordNet collaborator. -/
def synTokensE (wnDb : Option Wordnet) (rng : Rng) (psyn : ℚ) :
    List SpacyTok → RS → Except Unit (List Str × RS)
  | [], st => .ok ([], st)
  | t :: ts, st =>
    match synTokE wnDb rng psyn t st with
    | .error e => .error e
    | .ok o =>
      match synTokensE wnDb rng psyn ts o.2 with
      | .error e => .error e
      | .ok os => .ok (o.1 :: os.1, os.2)

/-- Translation of replace_synonyms of the source with possibly absent
collaborators: an absent spaCy pipeline returns the sentence unchanged; an
absent WordNet corpus raises on the first open-class token. -/
def replace_synonymsE (n : Option Nlp) (wnDb : Option Wordnet) (rng : Rng)
    (psyn : ℚ) (s : Str) (st : RS) : Except Unit (Str × RS) :=
  match n with
  | none => .ok (s, st)
  | some nl =>
    match synTokensE wnDb rng psyn (nl s) st with
    | .error e => .error e
    | .ok r => .ok (joinSpace r.1, r.2)

/-- Translation of add_academic_transition of the source: one random real is
always drawn; below the probability a uniformly chosen transition is
prepended with a single space. -/
def add_academic_transition (rng : Rng) (ptr : ℚ) (s : Str) (st : RS) : Str × RS :=
  if rng.real st.r < ptr then
    (ACADEMIC_TRANSITIONS.getD (rng.pick st.c % ACADEMIC_TRANSITIONS.length) []
      ++ ' ' :: s, ⟨st.r + 1, st.c + 1⟩)
  else (s, ⟨st.r + 1, st.c⟩)

/-- Translation of minimal_humanize_line of the source: contraction
expansion, then synonym substitution, then transition insertion. -/
def minimal_humanize_line (n : Option Nlp) (wnDb : Option Wordnet) (rng : Rng)
    (psyn ptr : ℚ) (line : Str) (st : RS) : Except Unit (Str × RS) :=
  match replace_synonymsE n wnDb rng psyn (expand_contractions line) st with
  | .error e => .error e
  | .ok r => .ok (add_academic_transition rng ptr r.1 r.2)

/-- Loop of minimal_rewriting over the sentences of a line. -/
def rewriteSents (n : Option Nlp) (wnDb : Option Wordnet) (rng : Rng)
    (psyn ptr : ℚ) : List Str → RS → Except Unit (List Str × RS)
  | [], st => .ok ([], st)
  | l :: ls, st =>
    match minimal_humanize_line n wnDb rng psyn ptr l st with
    | .error e => .error e
    | .ok o =>
      match rewriteSents n wnDb rng psyn ptr ls o.2 with
      | .error e => .error e
      | .ok os => .ok (o.1 :: os.1, os.2)

/-- Translation of minimal_rewriting of the source: sentence segmentation,
rewriting of each sentence, and a join with single spaces. -/
def minimal_rewriting (n : Option Nlp) (wnDb : Option Wordnet) (rng : Rng)
    (psyn ptr : ℚ) (text : Str) (st : RS) : Except Unit (Str × RS) :=
  match rewriteSents n wnDb rng psyn ptr (sent_tokenize text) st with
  | .error e => .error e
  | .ok r => .ok (joinSpace r.1, r.2)

/-- Python str.splitlines over the line break characters handled by the
model: newline, carriage return and the carriage-return-newline pair; a
trailing terminator does not open a final empty line. -/
def pySplitlinesAux : Str → Str → List Str
  | [], acc => if acc.isEmpty then [] else [acc.reverse]
  | '\x0d' :: '\n' :: r, acc => acc.reverse :: pySplitlinesAux r []
  | c :: r, acc =>
    if c = '\n' || c = '\x0d' || c = Char.ofNat 11 || c = Char.ofNat 12 then
      acc.reverse :: pySplitlinesAux r []
    else pySplitlinesAux r (c :: acc)

/-- Python str.splitlines of the model. -/
def pySplitlines (s : Str) : List Str := pySplitlinesAux s []

/-- Loop of preserve_linebreaks_rewrite over the lines: a blank or
whitespace-only line is kept as an empty line, any other line is rewritten. -/
def rewriteLines (n : Option Nlp) (wnDb : Option Wordnet) (rng : Rng)
    (psyn ptr : ℚ) : List Str → RS → Except Unit (List Str × RS)
  | [], st => .ok ([], st)
  | l :: ls, st =>
    if (pyStrip l).isEmpty then
      match rewriteLines n wnDb rng psyn ptr ls st with
      | .error e => .error e
      | .ok os => .ok ([] :: os.1, os.2)
    else
      match minimal_rewriting n wnDb rng psyn ptr l st with
      | .error e => .error e
      | .ok o =>
        match rewriteLines n wnDb rng psyn ptr ls o.2 with
        | .error e => .error e
        | .ok os => .ok (o.1 :: os.1, os.2)

/-- Translation of preserve_linebreaks_rewrite of the source: split on line
breaks, rewrite each non-blank line, and rejoin with single newlines. -/
def preserve_linebreaks_rewrite (n : Option Nlp) (wnDb : Option Wordnet)
    (rng : Rng) (psyn ptr : ℚ) (text : Str) (st : RS) : Except Unit (Str × RS) :=
  match rewriteLines n wnDb rng psyn ptr (pySplitlines text) st with
  | .error e => .error e
  | .ok r => .ok (joinNl r.1, r.2)

/-- Punctuation characters of the first cleanup substitution. -/
def punctCls (c : Char) : Bool :=
  c = '.' || c = ',' || c = ';' || c = ':' || c = '!' || c = '?'

/-- First cleanup substitution of the source: one or more spaces or tabs
before a punctuation character are removed. -/
def punctSub (t : Str) : Str :=
  subScan
    (fun s =>
      match s with
      | c :: _ =>
        if hTab c then
          match s.dropWhile hTab with
          | p :: r2 => if punctCls p then some ([p], r2) else none
          | [] => none
        else none
      | [] => none)
    t

/-- Test whether the head character is a space or tab. -/
def headHTab : Str → Bool
  | [] => false
  | c :: _ => hTab c

/-- Second cleanup substitution of the source: spaces or tabs directly after
an opening parenthesis are removed. -/
def openParSub (t : Str) : Str :=
  subScan
    (fun s =>
      match s with
      | '(' :: r =>
        if headHTab r then some (['('], r.dropWhile hTab) else none
      | _ => none)
    t

/-- Third cleanup substitution of the source: spaces or tabs directly before
a closing parenthesis are removed. -/
def closeParSub (t : Str) : Str :=
  subScan
    (fun s =>
      match s with
      | c :: _ =>
        if hTab c then
          match s.dropWhile hTab with
          | ')' :: r2 => some ([')'], r2)
          | _ => none
        else none
      | [] => none)
    t

/-- Fourth cleanup substitution of the source: a run of two or more spaces or
tabs collapses to a single space. -/
def collapseSub (t : Str) : Str :=
  subScan
    (fun s =>
      match s with
      | c :: _ =>
        if hTab c then
          let run := (s.takeWhile hTab).length
          if 2 ≤ run then some ([' '], s.drop run) else none
        else none
      | [] => none)
    t

/-- Attempted match of the quote normalization pattern of the source at the
current position: an opening quote marker, greedy whitespace, a lazy
non-empty run of non-newline characters, greedy whitespace, a closing quote
marker; the backtracking order of the engine is outer whitespace longest
first, content shortest first, inner whitespace longest first. -/
def qfTry (s : Str) : Option (Str × Str) :=
  if qopen.isPrefixOf s then
    let body := s.drop 2
    let w := (body.takeWhile pySpace).length
    (List.range (w + 1)).findSome? (fun i =>
      let afterA := body.drop (w - i)
      let maxC := (afterA.takeWhile (fun c => decide (¬ c = '\n'))).length
      (List.range maxC).findSome? (fun j =>
        let content := afterA.take (j + 1)
        let afterC := afterA.drop (j + 1)
        let v := (afterC.takeWhile pySpace).length
        (List.range (v + 1)).findSome? (fun k =>
          let afterB := afterC.drop (v - k)
          if qclose.isPrefixOf afterB then
            some ('"' :: content ++ ['"'], afterB.drop 2)
          else none)))
  else none

/-- Fifth cleanup substitution of the source: paired tokenized quotes fold
into plain double quotes around the content. -/
def quoteSub (t : Str) : Str := subScan qfTry t

/-- Whitespace and punctuation cleanup pass of show_humanize_page, the five
substitutions applied in source order. -/
def cleanup (t : Str) : Str :=
  quoteSub (collapseSub (closeParSub (openParSub (punctSub t))))

/-- Full humanize pipeline of show_humanize_page: citation extraction, the
line-preserving rewrite, citation restoration, and the cleanup pass. -/
def humanize_pipeline (n : Option Nlp) (wnDb : Option Wordnet) (rng : Rng)
    (psyn ptr : ℚ) (text : Str) : Except Unit Str :=
  let ex := extract_citations text
  match preserve_linebreaks_rewrite n wnDb rng psyn ptr ex.1 ⟨0, 0⟩ with
  | .error e => .error e
  | .ok r => .ok (cleanup (restore_citations r.1 ex.2))

/-- Random collaborator drawing zero forever, used for closed evaluations:
zero is a legal value of random.random and fails every strict comparison
against a zero probability. -/
def rng0 : Rng := ⟨fun _ => 0, fun _ => 0⟩

/-- Part-of-speech collaborator for the C3 counterexample: the whole sentence
is one token tagged NOUN. -/
def nlpNoun3 : Nlp := fun s => [⟨s, "NOUN".toList⟩]

/-- WordNet collaborator for the C3 counterexample: every word has synsets,
and the only lemma of a word is the word itself, so the filtered synonym list
is empty. -/
def wnSelf3 : Wordnet := ⟨fun _ => true, fun w _ => [w]⟩

/-- Part-of-speech collaborator for the C9 counterexample: the whole sentence
is one token tagged NOUN. -/
def nlpNoun9 : Nlp := fun s => [⟨s, "NOUN".toList⟩]

/-- Run of `n` spaces. -/
def spaces (n : Nat) : Str := List.replicate n ' '

/-- Whitespace-padded placeholder with digit string ds and whitespace runs
w1..w4 between the brackets: the exact shape of the strings matched by the
placeholder regular expression of the source. -/
def paddedPH (ds w1 w2 w3 w4 : Str) : Str :=
  '[' :: w1 ++ '[' :: w2 ++ "REF_".toList ++ ds ++ w3 ++ ']' :: w4 ++ [']']

/-- Predicate: every character of the string is regular-expression
whitespace. -/
abbrev allWs (w : Str) : Prop := ∀ ch ∈ w, pySpace ch = true

/-- Predicate: the head of the string, if any, does not satisfy the class. -/
def headNotP (p : Char → Bool) : Str → Prop
  | [] => True
  | c :: _ => p c = false

/-- Canonical placeholder key reconstructed from a digit string. -/
def phKey (ds : Str) : Str := "[[REF_".toList ++ ds ++ "]]".toList

/-- Claim C4 phrased as a recursion in the words of the specification: the
matches are processed in scan order; the i-th match replaces its first
remaining occurrence in the working text with the i-th placeholder, and the
pair placeholder-to-original is recorded in order. -/
def extractClaimAux : Str → List Str → Nat → Str × List (Str × Str)
  | t, [], _ => (t, [])
  | t, r :: rs, i =>
    let rest := extractClaimAux (replaceFirst r (placeholder i) t) rs (i + 1)
    (rest.1, (placeholder i, r) :: rest.2)

/-- Claim C4 phrased in the words of the specification, starting the
numbering at one. -/
def extractClaim (text : Str) : Str × List (Str × Str) :=
  extractClaimAux text (citFindall text) 1

/-- Character class of text a citation match can consume: the opening and
closing parentheses, the citation class characters and digits (these cover
the letters of the et-al and page fragments, dots, hyphens and commas). -/
def citChar (c : Char) : Bool :=
  c = '(' || c = ')' || citCls c || c.isDigit

/-- Relation between a working text and the original text it restores to:
the working text is the original with some substrings replaced by exact
placeholder keys, where each inserted key maps back to the replaced
substring through the placeholder map. -/
inductive Mix (pm : List (Str × Str)) : Str → Str → Prop
  | nil : Mix pm [] []
  | char (c : Char) {w o : Str} : Mix pm w o → Mix pm (c :: w) (c :: o)
  | place (ds r : Str) {w o : Str} : ¬ ds = [] → (∀ ch ∈ ds, ch.isDigit = true) →
      alookup pm (phKey ds) = some r → Mix pm w o → Mix pm (phKey ds ++ w) (r ++ o)

/-- Shape condition on a string: if it starts with an opening bracket, a
second character exists and is not another opening bracket.  Every proper
suffix of a padded placeholder satisfies it. -/
def PShape (d : Str) : Prop :=
  ∀ rest, d = '[' :: rest → ¬ rest = [] ∧ headNotP (fun c => decide (c = '[')) rest

/-- Shape condition on every non-empty suffix of a string. -/
def AllSuffP (t : Str) : Prop := ∀ d, d <:+ t → ¬ d = [] → PShape d

/-- Absence of placeholder-shaped substrings: the placeholder parse fails on
every suffix of the text. -/
def NoPhSuffix (o : Str) : Prop := ∀ d, d <:+ o → phParse d = none

/-- Class soundness of a matcher: every candidate rest is a suffix of the
input and the consumed prefix lies in the character class. -/
def MClass (m : MatchM) (P : Char → Bool) : Prop :=
  ∀ s r, r ∈ m s → ∃ c, s = c ++ r ∧ ∀ ch ∈ c, P ch = true

/-! Theorems. -/

/-- Helper: a decimal digit character decodes to its digit value. -/
theorem digitVal_digitChar : ∀ d, d < 10 → digitVal (digitChar d) = d := by decide

/-- Helper: decoding after appending one digit character. -/
theorem strToNat_append (a : Str) (c : Char) :
    strToNat (a ++ [c]) = 10 * strToNat a + digitVal c := by
  unfold strToNat
  rw [List.foldl_append]
  rfl

/-- Helper: the fuelled decimal rendering decodes to the rendered number
whenever the fuel covers the number of digits. -/
theorem natDecimalAux_val : ∀ f n, n < 10 ^ f → strToNat (natDecimalAux f n) = n := by
  intro f
  induction f with
  | zero =>
    intro n h
    have hn : n = 0 := by simpa using h
    subst hn
    rfl
  | succ f ih =>
    intro n h
    unfold natDecimalAux
    by_cases h10 : n < 10
    · rw [if_pos h10]
      show 10 * 0 + digitVal (digitChar n) = n
      rw [digitVal_digitChar n h10]
      omega
    · rw [if_neg h10, strToNat_append,
        ih (n / 10) ((Nat.div_lt_iff_lt_mul (by norm_num)).mpr (by rw [← pow_succ]; exact h)),
        digitVal_digitChar (n % 10) (Nat.mod_lt _ (by norm_num))]
      omega

/-- Helper: the decimal rendering decodes to the rendered number. -/
theorem natDecimal_val (n : Nat) : strToNat (natDecimal n) = n :=
  natDecimalAux_val (n + 1) n
    (lt_of_lt_of_le (Nat.lt_pow_self (by norm_num) n)
      (Nat.pow_le_pow_right (by norm_num) (Nat.le_succ n)))

/-- Helper: decimal renderings of distinct numbers are distinct. -/
theorem natDecimal_inj {m n : Nat} (h : natDecimal m = natDecimal n) : m = n := by
  have hm := natDecimal_val m
  rw [h, natDecimal_val] at hm
  exact hm.symm

/-- Helper: placeholders of distinct indices are distinct strings. -/
theorem placeholder_inj {m n : Nat} (h : placeholder m = placeholder n) : m = n := by
  unfold placeholder at h
  rw [List.append_assoc, List.append_assoc] at h
  exact natDecimal_inj (List.append_cancel_right (List.append_cancel_left h))

/-- Helper: the claim-side extraction is the fold of the source. -/
theorem extractAux_eq : ∀ (rs : List Str) (t : Str) (i : Nat),
    extractClaimAux t rs i =
      ((List.enumFrom i rs).foldl (fun a p => replaceFirst p.2 (placeholder p.1) a) t,
       (List.enumFrom i rs).map (fun p => (placeholder p.1, p.2))) := by
  intro rs
  induction rs with
  | nil => intro t i; rfl
  | cons r rs ih =>
    intro t i
    simp only [extractClaimAux, List.enumFrom, List.foldl_cons, List.map_cons, ih]

/-- Helper: the placeholder keys produced by the claim-side extraction are
the placeholders of consecutive indices. -/
theorem extractClaimAux_keys : ∀ (rs : List Str) (t : Str) (i : Nat),
    (extractClaimAux t rs i).2.map Prod.fst =
      (List.range rs.length).map (fun k => placeholder (i + k)) := by
  intro rs
  induction rs with
  | nil => intro t i; rfl
  | cons r rs ih =>
    intro t i
    simp only [extractClaimAux, List.map_cons, List.length_cons,
      List.range_succ_eq_map, List.map_map, ih]
    congr 1
    exact List.map_congr_left (fun k hk => by
      simp only [Function.comp_apply]
      congr 1
      omega)

/-- Claim C4: extract_citations equals the claim-side recursion that scans
the text left to right for non-overlapping citation matches and, for the
i-th match in scan order, replaces its first remaining occurrence in the
working text with the i-th placeholder while recording the pair in the map;
moreover later identical matches receive new placeholders, since all
recorded placeholder keys are pairwise distinct. -/
theorem c4_extraction (text : Str) :
    extract_citations text = extractClaim text ∧
    ((extract_citations text).2.map Prod.fst).Pairwise (fun a b => ¬ a = b) := by
  have heq : extract_citations text = extractClaim text := by
    unfold extract_citations extractClaim
    rw [extractAux_eq]
  refine ⟨heq, ?_⟩
  rw [heq]
  unfold extractClaim
  rw [extractClaimAux_keys]
  refine List.Pairwise.map _ ?_ (List.pairwise_lt_range _)
  intro a b hab h
  exact absurd (placeholder_inj h) (by omega)

/-- Claim C1, code-bug evidence: the input is a single well-formed citation
containing a space after the opening parenthesis and before the closing one;
the full pipeline with both probabilities zero outputs the citation with that
whitespace stripped by the final cleanup pass, so the citation substring of
the input does not appear verbatim in the output, against the stated
guarantee and the preservation promises of the source itself. -/
theorem c1_citation_not_verbatim :
    citFindall "( Smith, 2023 )".toList = ["( Smith, 2023 )".toList] ∧
    humanize_pipeline none none rng0 0 0 "( Smith, 2023 )".toList =
      .ok "(Smith, 2023)".toList ∧
    substr "( Smith, 2023 )".toList "(Smith, 2023)".toList = false :=
  ⟨by decide, by rfl, by decide⟩

/-- Claim C2, code-bug evidence: an input of two lines, an opening tokenizer
quote marker on the first and text with a closing marker on the second, is
folded by the quote normalization of the cleanup pass across the newline, so
the two input lines collapse into one output line, against the stated
line-count guarantee and the keep-newlines comments of the source itself. -/
theorem c2_linecount_not_preserved :
    humanize_pipeline none none rng0 0 0 (qopen ++ '\n' :: 'x' :: qclose) =
      .ok ('"' :: 'x' :: ['"']) ∧
    (pySplitlines (qopen ++ '\n' :: 'x' :: qclose)).length = 2 ∧
    (pySplitlines ('"' :: 'x' :: ['"'])).length = 1 :=
  ⟨by rfl, by decide, by decide⟩

/-- Claim C3, counterexample: a token tagged NOUN, with a non-empty synsets
call and no placeholder marker, is eligible in the sense of the claim, yet
with probability one it is not replaced, because the part-of-speech filtered
synonym list excluding the word itself is empty. -/
theorem c3_eligible_token_not_replaced :
    (("NOUN".toList : Str) ∈ openPos ∧
      wnSelf3.synsetsAny "blorp".toList = true ∧
      substr refMarker "blorp".toList = false) ∧
    replace_synonyms nlpNoun3 wnSelf3 rng0 1 "blorp".toList ⟨0, 0⟩ =
      ("blorp".toList, ⟨1, 0⟩) := by
  decide

/-- Helper: with probability zero and legal draws, the per-token step of
replace_synonyms keeps the token text. -/
theorem synTok_p0 (wn : Wordnet) (rng : Rng) (h0 : ∀ i, 0 ≤ rng.real i)
    (t : SpacyTok) (st : RS) : (synTok wn rng 0 t st).1 = t.text := by
  have hlt : ¬ rng.real st.r < 0 := not_lt.mpr (h0 st.r)
  unfold synTok
  repeat' split
  all_goals first
    | rfl
    | exact absurd (by assumption) hlt

/-- Helper: with probability zero and legal draws, the loop of
replace_synonyms maps each token to its text. -/
theorem synTokens_p0 (wn : Wordnet) (rng : Rng) (h0 : ∀ i, 0 ≤ rng.real i) :
    ∀ toks st, (synTokens wn rng 0 toks st).1 = toks.map SpacyTok.text := by
  intro toks
  induction toks with
  | nil => intro st; rfl
  | cons t ts ih =>
    intro st
    simp only [synTokens, List.map]
    rw [synTok_p0 wn rng h0, ih]

/-- Helper: the loop of replace_synonyms preserves the number of tokens. -/
theorem synTokens_len (wn : Wordnet) (rng : Rng) (p : ℚ) :
    ∀ toks st, (synTokens wn rng p toks st).1.length = toks.length := by
  intro toks
  induction toks with
  | nil => intro st; rfl
  | cons t ts ih => intro st; simp only [synTokens, List.length_cons, ih]

/-- Helper: each output of the loop of replace_synonyms is the per-token
step of the corresponding input token at some random state. -/
theorem synTokens_get (wn : Wordnet) (rng : Rng) (p : ℚ) :
    ∀ toks st i, i < toks.length →
      ∃ st2, (synTokens wn rng p toks st).1.getD i [] =
        (synTok wn rng p (toks.getD i ⟨[], []⟩) st2).1 := by
  intro toks
  induction toks with
  | nil => intro st i h; simp at h
  | cons t ts ih =>
    intro st i h
    cases i with
    | zero => exact ⟨st, by simp [synTokens]⟩
    | succ j =>
      have hj : j < ts.length := by simpa using h
      obtain ⟨st2, he⟩ := ih (synTok wn rng p t st).2 j hj
      exact ⟨st2, by simpa [synTokens] using he⟩

/-- Helper: indexing a non-empty list by a choice modulo its length is a
member of the list. -/
theorem getD_mod_mem (l : List Str) (h : ¬ l = []) (k : Nat) :
    l.getD (k % l.length) [] ∈ l := by
  have hl : 0 < l.length := List.length_pos.mpr h
  have hk : k % l.length < l.length := Nat.mod_lt _ hl
  rw [List.getD_eq_get?, List.get?_eq_get hk]
  exact List.get_mem l _ _

/-- Helper: with probability one and legal draws, the per-token step
replaces an eligible token with a member of its filtered synonym list when
that list is non-empty. -/
theorem synTok_p1 (wn : Wordnet) (rng : Rng) (h1 : ∀ i, rng.real i < 1)
    (t : SpacyTok) (st : RS) (hm : substr refMarker t.text = false)
    (hp : t.pos ∈ openPos) (hs : wn.synsetsAny t.text = true)
    (hne : ¬ get_synonyms wn t.text t.pos = []) :
    (synTok wn rng 1 t st).1 ∈ get_synonyms wn t.text t.pos := by
  have hemp : (get_synonyms wn t.text t.pos).isEmpty = false := by
    cases hq : get_synonyms wn t.text t.pos with
    | nil => exact absurd hq hne
    | cons a l => rfl
  unfold synTok
  split
  · simp_all
  · split
    · split
      · simp only [hemp, Bool.false_eq_true, if_false]
        exact getD_mod_mem _ hne _
      · exact absurd (h1 st.r) (by assumption)
    · simp_all

/-- Helper: members of the filtered synonym list differ case-insensitively
from the original word. -/
theorem get_synonyms_ne (wn : Wordnet) (w pos : Str) (x : Str)
    (hx : x ∈ get_synonyms wn w pos) : ¬ lowerStr x = lowerStr w := by
  unfold get_synonyms at hx
  repeat' split at hx
  all_goals first
    | simpa using (List.mem_filter.mp hx).2
    | simp at hx

/-- Claim C3, amended: with probability zero, replace_synonyms returns every
token unchanged (the sentence is the token texts joined with spaces) and
add_academic_transition inserts nothing; with probability one, every token
that is tagged with an open-class part of speech, has a non-empty synsets
call, does not contain the placeholder marker, and whose part-of-speech
filtered synonym list excluding the word itself is non-empty, is replaced by
a synonym from that list (in particular it changes case-insensitively);
eligible tokens with an empty filtered list are kept. -/
theorem c3_probability_boundary (n : Nlp) (wn : Wordnet) (rng : Rng)
    (s : Str) (st : RS)
    (h0 : ∀ i, 0 ≤ rng.real i) (h1 : ∀ i, rng.real i < 1) :
    (replace_synonyms n wn rng 0 s st).1 = joinSpace ((n s).map SpacyTok.text) ∧
    (add_academic_transition rng 0 s st).1 = s ∧
    (∀ toks : List SpacyTok, ∀ st2 : RS,
      (synTokens wn rng 1 toks st2).1.length = toks.length ∧
      (∀ i, i < toks.length →
        (substr refMarker (toks.getD i ⟨[], []⟩).text = false ∧
         (toks.getD i ⟨[], []⟩).pos ∈ openPos ∧
         wn.synsetsAny (toks.getD i ⟨[], []⟩).text = true ∧
         ¬ get_synonyms wn (toks.getD i ⟨[], []⟩).text (toks.getD i ⟨[], []⟩).pos = []) →
        ((synTokens wn rng 1 toks st2).1.getD i [] ∈
            get_synonyms wn (toks.getD i ⟨[], []⟩).text (toks.getD i ⟨[], []⟩).pos ∧
         ¬ lowerStr ((synTokens wn rng 1 toks st2).1.getD i []) =
            lowerStr (toks.getD i ⟨[], []⟩).text))) := by
  refine ⟨?_, ?_, ?_⟩
  · show joinSpace (synTokens wn rng 0 (n s) st).1 = _
    rw [synTokens_p0 wn rng h0]
  · show (if rng.real st.r < 0 then _ else (s, _)).1 = s
    rw [if_neg (not_lt.mpr (h0 st.r))]
  · intro toks st2
    refine ⟨synTokens_len wn rng 1 toks st2, ?_⟩
    intro i hi ⟨hm, hp, hs, hne⟩
    obtain ⟨st3, he⟩ := synTokens_get wn rng 1 toks st2 i hi
    rw [he]
    have hmem := synTok_p1 wn rng h1 _ st3 hm hp hs hne
    exact ⟨hmem, get_synonyms_ne wn _ _ _ hmem⟩

/-- Witness for claim C3: the amended probability-boundary theorem applied
to a concrete tagger, synonym database, sentence and state, with the
constant-zero random collaborator discharging both draw hypotheses. -/
theorem c3_probability_boundary_witness :
    (replace_synonyms nlpNoun3 wnSelf3 rng0 0 "cat".toList ⟨0, 0⟩).1 =
      joinSpace ((nlpNoun3 "cat".toList).map SpacyTok.text) ∧
    (add_academic_transition rng0 0 "cat".toList ⟨0, 0⟩).1 = "cat".toList :=
  ⟨(c3_probability_boundary nlpNoun3 wnSelf3 rng0 "cat".toList ⟨0, 0⟩
      (fun _ => le_refl 0) (fun _ => zero_lt_one)).1,
   (c3_probability_boundary nlpNoun3 wnSelf3 rng0 "cat".toList ⟨0, 0⟩
      (fun _ => le_refl 0) (fun _ => zero_lt_one)).2.1⟩

/-- Claim C6, counterexample: the sentence consisting of the single token
scan-apostrophe-t contains no whole-word contraction table entry as a token,
yet the whole-word pass replaces the embedded can-apostrophe-t substring, so
the sentence becomes scannot; whole-token matching as claimed would instead
leave the whole-word pass a no-op here (and the suffix pass would then
produce sca followed by not). -/
theorem c6_substring_matched :
    word_tokenize (apw "scan" "t") = [apw "scan" "t"] ∧
    ¬ (apw "scan" "t") ∈ WHOLE_CONTRACTIONS.map Prod.fst ∧
    wholeSub (apw "scan" "t") = "scannot".toList ∧
    expand_contractions (apw "scan" "t") = "scannot".toList := by
  decide

/-- Claim C6, amended: whole-word contraction entries are matched
case-insensitively as substrings at any position of the raw sentence (no
token-boundary anchoring), optionally wrapped in tokenizer quote markers, and
replaced by the documented expansion with the leading capitalization of the
matched text preserved; in particular a standalone sentence that is exactly a
table entry, or its capitalization, transforms to the documented expansion,
case-preserved. -/
theorem c6_contraction_coverage : ∀ kv ∈ WHOLE_CONTRACTIONS,
    expand_contractions kv.1 = kv.2 ∧
    expand_contractions (pyCapitalize kv.1) = pyCapitalize kv.2 := by
  decide

/-- Witness for claim C6: the coverage theorem applied to the first table
entry. -/
theorem c6_contraction_coverage_witness :
    expand_contractions (apw "can" "t") = "cannot".toList :=
  (c6_contraction_coverage (apw "can" "t", "cannot".toList) (by decide)).1

/-- Claim C7, counterexample: a token with interior capitals keeps only its
leading capitalization through the suffix fallback; the base is lowercased,
so the capitalization of the base token is not preserved. -/
theorem c7_interior_case_lost :
    suffixTok (apw "ABC" "s") = "Abc is".toList ∧
    ¬ suffixTok (apw "ABC" "s") = "ABC is".toList := by
  decide

/-- Helper: a findSome? whose function is a boolean guard returning its
argument is find?. -/
theorem findSome?_guard {α : Type} (p : α → Bool) (l : List α) :
    l.findSome? (fun x => if p x then some x else none) = l.find? p := by
  induction l with
  | nil => rfl
  | cons a l ih =>
    by_cases h : p a <;> simp [List.findSome?_cons, List.find?_cons, h, ih]

/-- Claim C7, amended: after word segmentation each token is checked against
the suffix table; when no suffix of the table matches the lowercased token it
is kept unchanged; when the first matching suffix in table order is kv, the
lowercased token decomposes as base plus suffix, and the output is the
lowercased base with the expansion appended, capitalized exactly when the
original token started with an uppercase letter (so only the leading
capitalization of the base is preserved); expand_contractions applies this
fallback to every token of the whole-word pass output. -/
theorem c7_suffix_fallback (t : Str) :
    ((∀ kv ∈ SUFFIX_CONTRACTIONS, endsW (lowerStr t) kv.1 = false) → suffixTok t = t) ∧
    (∀ kv, SUFFIX_CONTRACTIONS.find? (fun x => endsW (lowerStr t) x.1) = some kv →
      lowerStr t = (lowerStr t).take ((lowerStr t).length - kv.1.length) ++ kv.1 ∧
      suffixTok t =
        (if headUpper t
         then pyCapitalize ((lowerStr t).take ((lowerStr t).length - kv.1.length) ++ kv.2)
         else (lowerStr t).take ((lowerStr t).length - kv.1.length) ++ kv.2)) ∧
    (∀ s : Str, expand_contractions s = joinSpace ((word_tokenize (wholeSub s)).map suffixTok)) := by
  refine ⟨?_, ?_, fun s => rfl⟩
  · intro hall
    have hnone : SUFFIX_CONTRACTIONS.find? (fun x => endsW (lowerStr t) x.1) = none :=
      List.find?_eq_none.mpr (fun kv hkv => by simp [hall kv hkv])
    unfold suffixTok
    rw [findSome?_guard, hnone]
  · intro kv hfind
    have hp : endsW (lowerStr t) kv.1 = true := by
      have h2 := List.find?_some hfind
      simpa using h2
    have hdec : (lowerStr t).drop ((lowerStr t).length - kv.1.length) = kv.1 := by
      have := (Bool.and_eq_true _ _).mp hp
      exact of_decide_eq_true this.2
    constructor
    · conv_lhs => rw [← List.take_append_drop ((lowerStr t).length - kv.1.length) (lowerStr t)]
      rw [hdec]
    · unfold suffixTok
      rw [findSome?_guard, hfind]

/-- Witness for claim C7: the suffix-fallback theorem applied at a concrete
token with a capital head, discharging the find? hypothesis by evaluation. -/
theorem c7_suffix_fallback_witness :
    suffixTok (apw "They" "ve") = "They have".toList := by
  have h :=
    ((c7_suffix_fallback (apw "They" "ve")).2.1 (apw "" "ve", " have".toList) (by decide)).2
  rw [h]
  decide

/-- Helper: the per-token step of replace_synonyms keeps a token containing
the placeholder marker, at every probability and state. -/
theorem synTok_marker (wn : Wordnet) (rng : Rng) (p : ℚ) (t : SpacyTok) (st : RS)
    (hm : substr refMarker t.text = true) : (synTok wn rng p t st).1 = t.text := by
  unfold synTok
  rw [if_pos hm]

/-- Claim C8: for every probability and random state, a spaCy token whose
text contains the citation placeholder marker is passed through the loop of
replace_synonyms unchanged, and replace_synonyms is the space-join of that
loop, so placeholders in the working text are never altered by the synonym
transform. -/
theorem c8_placeholder_tokens_unchanged (wn : Wordnet) (rng : Rng) (p : ℚ)
    (toks : List SpacyTok) (st : RS) (i : Nat) (hi : i < toks.length)
    (hm : substr refMarker (toks.getD i ⟨[], []⟩).text = true) :
    (synTokens wn rng p toks st).1.getD i [] = (toks.getD i ⟨[], []⟩).text ∧
    ∀ (n : Nlp) (s : Str) (st2 : RS),
      (replace_synonyms n wn rng p s st2).1 = joinSpace (synTokens wn rng p (n s) st2).1 := by
  constructor
  · obtain ⟨st3, he⟩ := synTokens_get wn rng p toks st i hi
    rw [he, synTok_marker wn rng p _ st3 hm]
  · intro n s st2
    rfl

/-- Witness for claim C8: the placeholder-preservation theorem applied to a
one-token list containing the marker, with probability one. -/
theorem c8_placeholder_tokens_unchanged_witness :
    (synTokens wnSelf3 rng0 1 [⟨"[[REF_1]]".toList, "NOUN".toList⟩] ⟨0, 0⟩).1.getD 0 [] =
      "[[REF_1]]".toList := by
  have h :=
    (c8_placeholder_tokens_unchanged wnSelf3 rng0 1
      [⟨"[[REF_1]]".toList, "NOUN".toList⟩] ⟨0, 0⟩ 0 (by decide) (by decide)).1
  simpa using h

/-- Claim C9, counterexample: with the spaCy tagger present and the WordNet
corpus absent, a sentence with an open-class token makes replace_synonyms
raise (the unguarded synsets call) instead of degrading to a no-op. -/
theorem c9_wordnet_absence_raises :
    replace_synonymsE (some nlpNoun9) none rng0 0 "cat".toList ⟨0, 0⟩ = .error () := by
  rfl

/-- Helper: with the WordNet collaborator absent, the loop of
replace_synonyms errors exactly when some token is open-class and free of the
placeholder marker; tokens before the first such one are passed through with
the state unchanged. -/
theorem synTokensE_noWn_err (rng : Rng) (p : ℚ) :
    ∀ toks st, (∃ t ∈ toks, substr refMarker t.text = false ∧ t.pos ∈ openPos) →
      synTokensE none rng p toks st = .error () := by
  intro toks
  induction toks with
  | nil => intro st h; simp at h
  | cons t ts ih =>
    intro st h
    by_cases hm : substr refMarker t.text
    · have hts : ∃ x ∈ ts, substr refMarker x.text = false ∧ x.pos ∈ openPos := by
        obtain ⟨x, hx, hx1, hx2⟩ := h
        rcases List.mem_cons.mp hx with he | hmem
        · exact absurd (he ▸ hm) (by simp [hx1])
        · exact ⟨x, hmem, hx1, hx2⟩
      simp [synTokensE, synTokE, hm, ih st hts]
    · by_cases hp : t.pos ∈ openPos
      · simp [synTokensE, synTokE, hm, hp]
      · have hts : ∃ x ∈ ts, substr refMarker x.text = false ∧ x.pos ∈ openPos := by
          obtain ⟨x, hx, hx1, hx2⟩ := h
          rcases List.mem_cons.mp hx with he | hmem
          · exact absurd (he ▸ hx2) (by simp [hp])
          · exact ⟨x, hmem, hx1, hx2⟩
        simp [synTokensE, synTokE, hm, hp, ih st hts]

/-- Claim C9, amended: an absent spaCy tagger degrades replace_synonyms to a
no-op returning the sentence (and the random state) unchanged, but an absent
WordNet synonym database is not guarded: with the tagger present, any
sentence whose tokens include an open-class one without the placeholder
marker raises instead of degrading. -/
theorem c9_degradation_only_for_tagger :
    (∀ (wnDb : Option Wordnet) (rng : Rng) (p : ℚ) (s : Str) (st : RS),
      replace_synonymsE none wnDb rng p s st = .ok (s, st)) ∧
    (∀ (n : Nlp) (rng : Rng) (p : ℚ) (s : Str) (st : RS),
      (∃ t ∈ n s, substr refMarker t.text = false ∧ t.pos ∈ openPos) →
      replace_synonymsE (some n) none rng p s st = .error ()) := by
  constructor
  · intro wnDb rng p s st
    rfl
  · intro n rng p s st h
    have h2 := synTokensE_noWn_err rng p (n s) st h
    simp only [replace_synonymsE, h2]

/-- Witness for claim C9: both halves of the degradation theorem applied at
concrete collaborators, the existence hypothesis discharged by evaluation. -/
theorem c9_degradation_only_for_tagger_witness :
    replace_synonymsE none (some wnSelf3) rng0 0 "dog".toList ⟨0, 0⟩ =
      .ok ("dog".toList, ⟨0, 0⟩) ∧
    replace_synonymsE (some nlpNoun9) none rng0 0 "dog".toList ⟨0, 0⟩ = .error () :=
  ⟨c9_degradation_only_for_tagger.1 (some wnSelf3) rng0 0 "dog".toList ⟨0, 0⟩,
   c9_degradation_only_for_tagger.2 nlpNoun9 rng0 0 "dog".toList ⟨0, 0⟩
     ⟨⟨"dog".toList, "NOUN".toList⟩, by decide, by decide, by decide⟩⟩

/-- Helper: the fuelled substitution scan is independent of the fuel once the
fuel covers the input length, for matchers that always consume. -/
theorem subScanF_congr (f : Str → Option (Str × Str)) (hf : Consumes f) :
    ∀ (n : Nat) (s : Str) (fl1 fl2 : Nat), s.length ≤ n → s.length ≤ fl1 →
      s.length ≤ fl2 → subScanF f fl1 s = subScanF f fl2 s := by
  intro n
  induction n with
  | zero =>
    intro s fl1 fl2 hn _ _
    have hs : s = [] := List.length_eq_zero.mp (Nat.le_zero.mp hn)
    subst hs
    cases fl1 <;> cases fl2 <;> rfl
  | succ n ih =>
    intro s fl1 fl2 hn h1 h2
    cases s with
    | nil => cases fl1 <;> cases fl2 <;> rfl
    | cons c r =>
      simp only [List.length_cons] at hn h1 h2
      cases fl1 with
      | zero => omega
      | succ g1 =>
        cases fl2 with
        | zero => omega
        | succ g2 =>
          show subScanF f (g1 + 1) (c :: r) = subScanF f (g2 + 1) (c :: r)
          unfold subScanF
          cases hf2 : f (c :: r) with
          | none =>
            simp only
            congr 1
            exact ih r g1 g2 (by omega) (by omega) (by omega)
          | some p =>
            obtain ⟨rep, rest⟩ := p
            simp only
            congr 1
            have hlt := hf _ _ hf2
            simp only [List.length_cons] at hlt
            exact ih rest g1 g2 (by omega) (by omega) (by omega)

/-- Helper: one scan step when the matcher fails at the head. -/
theorem subScan_cons_none (f : Str → Option (Str × Str)) (c : Char) (r : Str)
    (h : f (c :: r) = none) : subScan f (c :: r) = c :: subScan f r := by
  show subScanF f (r.length + 1) (c :: r) = _
  unfold subScanF
  rw [h]
  rfl

/-- Helper: one scan step when the matcher succeeds at the head. -/
theorem subScan_cons_some (f : Str → Option (Str × Str)) (hf : Consumes f)
    (c : Char) (r rep rest : Str) (h : f (c :: r) = some (rep, rest)) :
    subScan f (c :: r) = rep ++ subScan f rest := by
  show subScanF f (r.length + 1) (c :: r) = _
  unfold subScanF
  rw [h]
  show rep ++ subScanF f r.length rest = rep ++ subScan f rest
  congr 1
  have hlt := hf _ _ h
  simp only [List.length_cons] at hlt
  show subScanF f r.length rest = subScanF f rest.length rest
  exact subScanF_congr f hf rest.length rest r.length rest.length le_rfl (by omega) le_rfl

/-- Helper: the placeholder parse fails when the head character is not an
opening bracket. -/
theorem phParse_none (c : Char) (r : Str) (hc : ¬ c = '[') :
    phParse (c :: r) = none := by
  unfold phParse
  exact if_neg hc

/-- Helper: a string is a prefix of itself followed by anything. -/
theorem isPrefixOf_append_self : ∀ (a b : Str), a.isPrefixOf (a ++ b) = true := by
  intro a
  induction a with
  | nil => intro b; simp [List.isPrefixOf]
  | cons c t ih => intro b; simpa [List.isPrefixOf] using ih b

/-- Helper: dropping the length of the takeWhile run is dropWhile. -/
theorem drop_takeWhile_length (p : Char → Bool) :
    ∀ l : Str, l.drop (l.takeWhile p).length = l.dropWhile p := by
  intro l
  induction l with
  | nil => rfl
  | cons c r ih =>
    by_cases h : p c <;> simp [List.takeWhile_cons, List.dropWhile_cons, h, ih]

/-- Helper: dropWhile jumps a run of class characters and stops at a
non-class head. -/
theorem dropWhile_run_append (p : Char → Bool) :
    ∀ (w : Str) (x : Char) (l : Str), (∀ ch ∈ w, p ch = true) → p x = false →
      (w ++ x :: l).dropWhile p = x :: l := by
  intro w
  induction w with
  | nil => intro x l _ hx; simp [List.dropWhile_cons, hx]
  | cons c t ih =>
    intro x l hw hx
    have hc : p c = true := hw c (List.mem_cons_self c t)
    simp only [List.cons_append, List.dropWhile_cons, hc, if_true]
    exact ih x l (fun ch hch => hw ch (List.mem_cons_of_mem c hch)) hx

/-- Helper: takeWhile keeps exactly a run of class characters when the
following head is out of the class. -/
theorem takeWhile_run_append (p : Char → Bool) :
    ∀ (a l : Str), (∀ ch ∈ a, p ch = true) → headNotP p l →
      (a ++ l).takeWhile p = a := by
  intro a
  induction a with
  | nil =>
    intro l _ hl
    cases l with
    | nil => rfl
    | cons x r => simp only [headNotP] at hl; simp [List.takeWhile_cons, hl]
  | cons c t ih =>
    intro l hw hl
    have hc : p c = true := hw c (List.mem_cons_self c t)
    simp only [List.cons_append, List.takeWhile_cons, hc, if_true]
    rw [ih l (fun ch hch => hw ch (List.mem_cons_of_mem c hch)) hl]

/-- Helper: whitespace characters are not digits. -/
theorem pySpace_not_digit (ch : Char) (h : pySpace ch = true) : ch.isDigit = false := by
  unfold pySpace at h
  simp only [Bool.or_eq_true, decide_eq_true_eq] at h
  rcases h with ((((h | h) | h) | h) | h) | h <;> subst h <;> rfl

/-- Helper: a whitespace run followed by a non-digit head is not
digit-headed. -/
theorem headNotDigit_ws (w : Str) (hw : allWs w) (x : Char) (hx : x.isDigit = false)
    (l : Str) : headNotP Char.isDigit (w ++ x :: l) := by
  cases w with
  | nil => exact hx
  | cons c t =>
    show Char.isDigit c = false
    exact pySpace_not_digit c (hw c (List.mem_cons_self c t))

/-- Helper: the placeholder parse succeeds on a padded placeholder followed
by anything, capturing the digit string and the rest. -/
theorem phParse_padded (ds w1 w2 w3 w4 suf : Str)
    (h1 : allWs w1) (h2 : allWs w2) (h3 : allWs w3) (h4 : allWs w4)
    (hne : ¬ ds = []) (hdig : ∀ ch ∈ ds, ch.isDigit = true) :
    phParse (paddedPH ds w1 w2 w3 w4 ++ suf) = some (ds, suf) := by
  have hREF : ("REF_".toList : Str) = ['R', 'E', 'F', '_'] := rfl
  have hshape : paddedPH ds w1 w2 w3 w4 ++ suf =
      '[' :: (w1 ++ '[' :: (w2 ++ 'R' :: 'E' :: 'F' :: '_' ::
        (ds ++ (w3 ++ ']' :: (w4 ++ ']' :: suf))))) := by
    simp [paddedPH, hREF, List.append_assoc]
  have hd1 : (w1 ++ '[' :: (w2 ++ 'R' :: 'E' :: 'F' :: '_' ::
      (ds ++ (w3 ++ ']' :: (w4 ++ ']' :: suf))))).dropWhile pySpace =
      '[' :: (w2 ++ 'R' :: 'E' :: 'F' :: '_' ::
        (ds ++ (w3 ++ ']' :: (w4 ++ ']' :: suf)))) :=
    dropWhile_run_append pySpace w1 '[' _ h1 (by decide)
  have hd2 : (w2 ++ 'R' :: 'E' :: 'F' :: '_' ::
      (ds ++ (w3 ++ ']' :: (w4 ++ ']' :: suf)))).dropWhile pySpace =
      'R' :: 'E' :: 'F' :: '_' :: (ds ++ (w3 ++ ']' :: (w4 ++ ']' :: suf))) :=
    dropWhile_run_append pySpace w2 'R' _ h2 (by decide)
  have hpre : "REF_".toList.isPrefixOf
      ('R' :: 'E' :: 'F' :: '_' :: (ds ++ (w3 ++ ']' :: (w4 ++ ']' :: suf)))) = true := by
    show "REF_".toList.isPrefixOf
      ("REF_".toList ++ (ds ++ (w3 ++ ']' :: (w4 ++ ']' :: suf)))) = true
    exact isPrefixOf_append_self _ _
  have hdrop4 : ('R' :: 'E' :: 'F' :: '_' ::
      (ds ++ (w3 ++ ']' :: (w4 ++ ']' :: suf)))).drop 4 =
      ds ++ (w3 ++ ']' :: (w4 ++ ']' :: suf)) := rfl
  have htk : (ds ++ (w3 ++ ']' :: (w4 ++ ']' :: suf))).takeWhile Char.isDigit = ds :=
    takeWhile_run_append Char.isDigit ds _ hdig (headNotDigit_ws w3 h3 ']' (by decide) _)
  have hd3 : (ds ++ (w3 ++ ']' :: (w4 ++ ']' :: suf))).drop ds.length =
      w3 ++ ']' :: (w4 ++ ']' :: suf) := List.drop_left ..
  have hd4 : (w3 ++ ']' :: (w4 ++ ']' :: suf)).dropWhile pySpace =
      ']' :: (w4 ++ ']' :: suf) :=
    dropWhile_run_append pySpace w3 ']' _ h3 (by decide)
  have hd5 : (w4 ++ ']' :: suf).dropWhile pySpace = ']' :: suf :=
    dropWhile_run_append pySpace w4 ']' _ h4 (by decide)
  rw [hshape]
  unfold phParse
  simp only [hd1, hd2, hpre, hdrop4, htk, hd3, hd4, hd5, hne, if_true, if_false,
    eq_self_iff_true, ite_true, ite_false, not_false_iff]

/-- Helper: a successful placeholder parse characterizes the consumed text
as a whitespace-padded placeholder. -/
theorem phParse_shape : ∀ (s ds rest : Str), phParse s = some (ds, rest) →
    ∃ w1 w2 w3 w4, allWs w1 ∧ allWs w2 ∧ allWs w3 ∧ allWs w4 ∧
      ¬ ds = [] ∧ (∀ ch ∈ ds, ch.isDigit = true) ∧
      s = paddedPH ds w1 w2 w3 w4 ++ rest := by
  intro s ds rest h
  unfold phParse at h
  split at h
  · exact absurd h (by simp)
  · rename_i c0 r1
    split at h
    · rename_i hc0
      subst hc0
      split at h
      · exact absurd h (by simp)
      · rename_i c1 r3 heq1
        split at h
        · rename_i hc1
          subst hc1
          split at h
          · rename_i hpre
            split at h
            · exact absurd h (by simp)
            · rename_i hds
              split at h
              · exact absurd h (by simp)
              · rename_i c2 r8 heq2
                split at h
                · rename_i hc2
                  subst hc2
                  split at h
                  · exact absurd h (by simp)
                  · rename_i c3 r10 heq3
                    split at h
                    · rename_i hc3
                      subst hc3
                      injection h with h1
                      injection h1 with hds2 hrest
                      rw [hds2] at heq2 hds
                      subst hrest
                      refine ⟨r1.takeWhile pySpace, r3.takeWhile pySpace,
                        (((r3.dropWhile pySpace).drop 4).drop ds.length).takeWhile pySpace,
                        r8.takeWhile pySpace, ?_, ?_, ?_, ?_, hds, ?_, ?_⟩
                      · exact fun ch hch => List.mem_takeWhile_imp hch
                      · exact fun ch hch => List.mem_takeWhile_imp hch
                      · exact fun ch hch => List.mem_takeWhile_imp hch
                      · exact fun ch hch => List.mem_takeWhile_imp hch
                      · intro ch hch
                        rw [← hds2] at hch
                        exact List.mem_takeWhile_imp hch
                      · have e1 : r1 = r1.takeWhile pySpace ++ '[' :: r3 := by
                          conv_lhs => rw [← List.takeWhile_append_dropWhile
                            (p := pySpace) (l := r1)]
                          rw [heq1]
                        have e2 : r3 = r3.takeWhile pySpace ++
                            ("REF_".toList ++ ((r3.dropWhile pySpace).drop 4)) := by
                          conv_lhs => rw [← List.takeWhile_append_dropWhile
                            (p := pySpace) (l := r3)]
                          congr 1
                          obtain ⟨t, ht⟩ := List.isPrefixOf_iff_prefix.mp hpre
                          rw [← ht, show (4 : Nat) = ("REF_".toList).length from rfl,
                            List.drop_left]
                        have e3 : (r3.dropWhile pySpace).drop 4 =
                            ds ++ ((r3.dropWhile pySpace).drop 4).drop ds.length := by
                          conv_lhs => rw [← List.takeWhile_append_dropWhile
                            (p := Char.isDigit) (l := (r3.dropWhile pySpace).drop 4)]
                          rw [hds2, ← drop_takeWhile_length Char.isDigit
                            ((r3.dropWhile pySpace).drop 4), hds2]
                        have e4 : ((r3.dropWhile pySpace).drop 4).drop ds.length =
                            (((r3.dropWhile pySpace).drop 4).drop ds.length).takeWhile
                              pySpace ++ ']' :: r8 := by
                          conv_lhs => rw [← List.takeWhile_append_dropWhile
                            (p := pySpace)
                            (l := ((r3.dropWhile pySpace).drop 4).drop ds.length)]
                          rw [heq2]
                        have e5 : r8 = r8.takeWhile pySpace ++ ']' :: r10 := by
                          conv_lhs => rw [← List.takeWhile_append_dropWhile
                            (p := pySpace) (l := r8)]
                          rw [heq3]
                        conv_lhs => rw [e1, e2, e3, e4, e5]
                        simp [paddedPH, List.append_assoc]
                    · exact absurd h (by simp)
                · exact absurd h (by simp)
          · exact absurd h (by simp)
        · exact absurd h (by simp)
    · exact absurd h (by simp)

/-- Helper: the restore matcher always consumes at least one character. -/
theorem restoreF_consumes (pm : List (Str × Str)) : Consumes (restoreF pm) := by
  intro s p h
  unfold restoreF at h
  split at h
  · rename_i ds rest hph
    obtain ⟨w1, w2, w3, w4, _, _, _, _, _, _, hs⟩ := phParse_shape s ds rest hph
    have hp2 : p.2 = rest := by
      injection h with h1
      rw [← h1]
    rw [hp2, hs, paddedPH]
    simp [List.length_append]
    omega
  · exact absurd h (by simp)

/-- Helper: characters other than an opening bracket pass through the
restore scan unchanged. -/
theorem restore_clean_lead (pm : List (Str × Str)) :
    ∀ pre suf : Str, (∀ ch ∈ pre, ¬ ch = '[') →
      restore_citations (pre ++ suf) pm = pre ++ restore_citations suf pm := by
  intro pre
  induction pre with
  | nil => intro suf _; rfl
  | cons c t ih =>
    intro suf hc
    have hcn : ¬ c = '[' := hc c (List.mem_cons_self c t)
    show subScan (restoreF pm) (c :: (t ++ suf)) = _
    rw [subScan_cons_none (restoreF pm) c (t ++ suf)
      (by unfold restoreF; rw [phParse_none c _ hcn])]
    show c :: restore_citations (t ++ suf) pm = c :: t ++ restore_citations suf pm
    rw [ih suf (fun ch hch => hc ch (List.mem_cons_of_mem c hch))]
    rfl

/-- Helper: the restore scan at a padded placeholder replaces it by the
mapped citation, or keeps it verbatim when the key is unmapped, and
continues after it. -/
theorem restore_at_padded (pm : List (Str × Str)) (ds w1 w2 w3 w4 suf : Str)
    (h1 : allWs w1) (h2 : allWs w2) (h3 : allWs w3) (h4 : allWs w4)
    (hne : ¬ ds = []) (hdig : ∀ ch ∈ ds, ch.isDigit = true) :
    restore_citations (paddedPH ds w1 w2 w3 w4 ++ suf) pm =
      (alookup pm (phKey ds)).getD (paddedPH ds w1 w2 w3 w4) ++
        restore_citations suf pm := by
  have hmt : (paddedPH ds w1 w2 w3 w4 ++ suf).take
      ((paddedPH ds w1 w2 w3 w4 ++ suf).length - suf.length) =
      paddedPH ds w1 w2 w3 w4 := by
    rw [List.length_append, Nat.add_sub_cancel, List.take_left]
  have hF : restoreF pm (paddedPH ds w1 w2 w3 w4 ++ suf) =
      some ((alookup pm (phKey ds)).getD (paddedPH ds w1 w2 w3 w4), suf) := by
    unfold restoreF
    rw [phParse_padded ds w1 w2 w3 w4 suf h1 h2 h3 h4 hne hdig]
    show some ((alookup pm ("[[REF_".toList ++ ds ++ "]]".toList)).getD
      ((paddedPH ds w1 w2 w3 w4 ++ suf).take
        ((paddedPH ds w1 w2 w3 w4 ++ suf).length - suf.length)), suf) = _
    rw [hmt]
    rfl
  have hcons : paddedPH ds w1 w2 w3 w4 ++ suf =
      '[' :: ((w1 ++ '[' :: w2 ++ "REF_".toList ++ ds ++ w3 ++ ']' :: w4 ++ [']'])
        ++ suf) := by
    rw [paddedPH]
    rfl
  rw [hcons] at hF ⊢
  exact subScan_cons_some (restoreF pm) (restoreF_consumes pm) '[' _ _ _ hF

/-- Claim C5: for every placeholder map and every placeholder occurrence,
padded with arbitrary incidental whitespace between its bracket characters,
restore_citations replaces the occurrence with its mapped original citation
when the reconstructed key is in the map, and leaves the occurrence verbatim
(never dropped) when the key has no map entry; characters before the
occurrence that cannot start a placeholder pass through unchanged and the
scan continues after the occurrence. -/
theorem c5_restore_tolerant (pm : List (Str × Str)) (pre suf ds w1 w2 w3 w4 : Str)
    (hpre : ∀ ch ∈ pre, ¬ ch = '[')
    (h1 : allWs w1) (h2 : allWs w2) (h3 : allWs w3) (h4 : allWs w4)
    (hne : ¬ ds = []) (hdig : ∀ ch ∈ ds, ch.isDigit = true) :
    restore_citations (pre ++ paddedPH ds w1 w2 w3 w4 ++ suf) pm =
      pre ++ ((alookup pm (phKey ds)).getD (paddedPH ds w1 w2 w3 w4) ++
        restore_citations suf pm) := by
  rw [List.append_assoc, restore_clean_lead pm pre _ hpre,
    restore_at_padded pm ds w1 w2 w3 w4 suf h1 h2 h3 h4 hne hdig]

/-- Witness for claim C5: the tolerant-restoration theorem applied to the
whitespace-padded occurrence of the specification example, once with a
mapped key (the citation is restored) and the lookup evaluated. -/
theorem c5_restore_tolerant_witness :
    restore_citations ("x ".toList ++ paddedPH ['3'] [' '] [' '] [' '] [' ']
        ++ " y".toList) [(phKey ['3'], "(Q, 2000)".toList)] =
      "x (Q, 2000) y".toList := by
  have h := c5_restore_tolerant [(phKey ['3'], "(Q, 2000)".toList)]
    "x ".toList " y".toList ['3'] [' '] [' '] [' '] [' ']
    (by decide) (by decide) (by decide) (by decide) (by decide)
    (by decide) (by decide)
  rw [h]
  decide

/-- Helper: class soundness of the literal matcher. -/
theorem mclass_mlit (l : Str) (P : Char → Bool) (hl : ∀ ch ∈ l, P ch = true) :
    MClass (mlit l) P := by
  intro s r hr
  unfold mlit at hr
  split at hr
  · rename_i hp
    simp only [List.mem_singleton] at hr
    subst hr
    obtain ⟨t, ht⟩ := List.isPrefixOf_iff_prefix.mp hp
    refine ⟨l, ?_, hl⟩
    rw [← ht, List.drop_left]
  · simp at hr

/-- Helper: class soundness of the greedy star matcher. -/
theorem mclass_mstar (p P : Char → Bool) (hp : ∀ ch, p ch = true → P ch = true) :
    MClass (mstar p) P := by
  intro s r hr
  unfold mstar at hr
  simp only [List.mem_map, List.mem_range] at hr
  obtain ⟨i, _, hr⟩ := hr
  subst hr
  refine ⟨s.take ((s.takeWhile p).length - i), ?_, ?_⟩
  · rw [List.take_append_drop]
  · intro ch hch
    have hk : (s.takeWhile p).length - i ≤ (s.takeWhile p).length := Nat.sub_le _ _
    have he : s.take ((s.takeWhile p).length - i) =
        (s.takeWhile p).take ((s.takeWhile p).length - i) := by
      have h2 : ((s.takeWhile p) ++ (s.dropWhile p)).take ((s.takeWhile p).length - i) =
          (s.takeWhile p).take ((s.takeWhile p).length - i) :=
        List.take_append_of_le_length hk
      rw [List.takeWhile_append_dropWhile] at h2
      exact h2
    rw [he] at hch
    exact hp ch (List.mem_takeWhile_imp (List.mem_of_mem_take hch))

/-- Helper: class soundness of the greedy plus matcher. -/
theorem mclass_mplus (p P : Char → Bool) (hp : ∀ ch, p ch = true → P ch = true) :
    MClass (mplus p) P := by
  intro s r hr
  cases s with
  | nil => simp [mplus] at hr
  | cons c r0 =>
    rw [mplus] at hr
    split at hr
    · rename_i hc
      obtain ⟨c1, he, hchars⟩ := mclass_mstar p P hp r0 r hr
      refine ⟨c :: c1, by rw [he, List.cons_append], ?_⟩
      intro ch hch
      rcases List.mem_cons.mp hch with h | h
      · subst h; exact hp ch hc
      · exact hchars ch h
    · simp at hr

/-- Helper: class soundness of the exact-repetition matcher. -/
theorem mclass_mrep (p P : Char → Bool) (hp : ∀ ch, p ch = true → P ch = true) :
    ∀ n, MClass (mrep p n) P := by
  intro n
  induction n with
  | zero =>
    intro s r hr
    simp only [mrep, List.mem_singleton] at hr
    subst hr
    exact ⟨[], rfl, by simp⟩
  | succ n ih =>
    intro s r hr
    cases s with
    | nil => simp [mrep] at hr
    | cons c r0 =>
      rw [mrep] at hr
      split at hr
      · rename_i hc
        obtain ⟨c1, he, hchars⟩ := ih r0 r hr
        refine ⟨c :: c1, by rw [he, List.cons_append], ?_⟩
        intro ch hch
        rcases List.mem_cons.mp hch with h | h
        · subst h; exact hp ch hc
        · exact hchars ch h
      · simp at hr

/-- Helper: class soundness of the option matcher. -/
theorem mclass_mopt (a : MatchM) (P : Char → Bool) (ha : MClass a P) :
    MClass (mopt a) P := by
  intro s r hr
  unfold mopt at hr
  rcases List.mem_append.mp hr with h | h
  · exact ha s r h
  · simp only [List.mem_singleton] at h
    subst h
    exact ⟨[], rfl, by simp⟩

/-- Helper: class soundness of matcher sequencing. -/
theorem mclass_mseq (a b : MatchM) (P : Char → Bool) (ha : MClass a P)
    (hb : MClass b P) : MClass (mseq a b) P := by
  intro s r hr
  unfold mseq at hr
  obtain ⟨r1, hr1, hr2⟩ := List.mem_flatMap.mp hr
  obtain ⟨c1, he1, hc1⟩ := ha s r1 hr1
  obtain ⟨c2, he2, hc2⟩ := hb r1 r hr2
  refine ⟨c1 ++ c2, ?_, ?_⟩
  · rw [he1, he2, List.append_assoc]
  · intro ch hch
    rcases List.mem_append.mp hch with h | h
    · exact hc1 ch h
    · exact hc2 ch h

/-- Helper: whitespace is in the citation character class. -/
theorem pySpace_citChar (ch : Char) (h : pySpace ch = true) : citChar ch = true := by
  simp [citChar, citCls, h]

/-- Helper: digits are in the citation character class. -/
theorem isDigit_citChar (ch : Char) (h : ch.isDigit = true) : citChar ch = true := by
  simp [citChar, h]

/-- Helper: citation class characters are in the citation character class. -/
theorem citCls_citChar (ch : Char) (h : citCls ch = true) : citChar ch = true := by
  simp [citChar, h]

/-- Helper: class soundness of the page-fragment matcher. -/
theorem mclass_pages : MClass pagesM citChar := by
  unfold pagesM
  refine mclass_mseq _ _ _ (mclass_mlit _ _ (by decide)) ?_
  refine mclass_mseq _ _ _ (mclass_mstar _ _ pySpace_citChar) ?_
  refine mclass_mseq _ _ _ (mclass_mlit _ _ (by decide)) ?_
  refine mclass_mseq _ _ _ (mclass_mopt _ _ (mclass_mlit _ _ (by decide))) ?_
  refine mclass_mseq _ _ _ (mclass_mlit _ _ (by decide)) ?_
  refine mclass_mseq _ _ _ (mclass_mstar _ _ pySpace_citChar) ?_
  refine mclass_mseq _ _ _ (mclass_mplus _ _ isDigit_citChar) ?_
  exact mclass_mopt _ _ (mclass_mseq _ _ _ (mclass_mlit _ _ (by decide))
    (mclass_mplus _ _ isDigit_citChar))

/-- Helper: class soundness of the citation matcher: everything a citation
match consumes is in the citation character class. -/
theorem mclass_cit : MClass citM citChar := by
  unfold citM
  refine mclass_mseq _ _ _ (mclass_mlit _ _ (by decide)) ?_
  refine mclass_mseq _ _ _ (mclass_mstar _ _ pySpace_citChar) ?_
  refine mclass_mseq _ _ _ (mclass_mplus _ _ citCls_citChar) ?_
  refine mclass_mseq _ _ _ (mclass_mopt _ _ (mclass_mseq _ _ _
    (mclass_mlit _ _ (by decide)) (mclass_mstar _ _ pySpace_citChar))) ?_
  refine mclass_mseq _ _ _ (mclass_mlit _ _ (by decide)) ?_
  refine mclass_mseq _ _ _ (mclass_mstar _ _ pySpace_citChar) ?_
  refine mclass_mseq _ _ _ (mclass_mrep _ _ isDigit_citChar 4) ?_
  refine mclass_mseq _ _ _ (mclass_mopt _ _ mclass_pages) ?_
  exact mclass_mseq _ _ _ (mclass_mstar _ _ pySpace_citChar)
    (mclass_mlit _ _ (by decide))

/-- Helper: a successful citation match means the input starts with an
opening parenthesis. -/
theorem citM_head (s : Str) (h : ¬ citM s = []) : ∃ t, s = '(' :: t := by
  unfold citM mseq at h
  cases hq : mlit ['('] s with
  | nil => rw [hq] at h; simp at h
  | cons r1 rest =>
    unfold mlit at hq
    split at hq
    · rename_i hp
      obtain ⟨t, ht⟩ := List.isPrefixOf_iff_prefix.mp hp
      exact ⟨t, by rw [← ht]; rfl⟩
    · simp at hq

/-- Helper: every match returned by the citation scan is non-empty, starts
with an opening parenthesis and consists of citation-class characters. -/
theorem citFindallF_mem : ∀ (fuel : Nat) (s r : Str), r ∈ citFindallF fuel s →
    (∃ t, r = '(' :: t) ∧ (∀ ch ∈ r, citChar ch = true) := by
  intro fuel
  induction fuel with
  | zero => intro s r hr; simp [citFindallF] at hr
  | succ fl ih =>
    intro s r hr
    cases s with
    | nil => simp [citFindallF] at hr
    | cons c rest =>
      rw [citFindallF] at hr
      split at hr
      · rename_i L hm
        split at hr
        · exact ih _ r hr
        · rename_i hL
          rcases List.mem_cons.mp hr with h | h
          · subst h
            unfold matchCitAt at hm
            split at hm
            · exact absurd hm (by simp)
            · rename_i r0 tl hcit
              injection hm with hm1
              have hr0 : r0 ∈ citM (c :: rest) := by rw [hcit]; exact List.mem_cons_self r0 tl
              obtain ⟨cc, heq, hchars⟩ := mclass_cit (c :: rest) r0 hr0
              have hlen : cc.length = (c :: rest).length - r0.length := by
                have := congrArg List.length heq
                simp only [List.length_append] at this
                omega
              have htake : (c :: rest).take ((c :: rest).length - r0.length) = cc := by
                rw [← hlen, heq, List.take_left]
              rw [← hm1, htake]
              refine ⟨?_, hchars⟩
              have hcne : ¬ citM (c :: rest) = [] := by rw [hcit]; simp
              obtain ⟨t, ht⟩ := citM_head _ hcne
              have hcc : ¬ cc = [] := by
                intro hnil
                rw [← hm1, ← hlen, hnil] at hL
                exact hL rfl
              cases cc with
              | nil => exact absurd rfl hcc
              | cons c0 cc0 =>
                refine ⟨cc0, ?_⟩
                have : c0 = '(' := by
                  have h0 := congrArg (fun l => l.headI) heq
                  rw [ht] at h0
                  simpa using h0.symm
                rw [this]
          · exact ih _ r h
      · exact ih _ r hr

/-- Helper: membership characterization for the wrapper scan. -/
theorem citFindall_mem (text r : Str) (hr : r ∈ citFindall text) :
    (∃ t, r = '(' :: t) ∧ (∀ ch ∈ r, citChar ch = true) :=
  citFindallF_mem text.length text r hr

/-- Helper: the placeholder key is two opening brackets followed by the rest
of the marker and the digits. -/
theorem phKey_cons (ds : Str) :
    phKey ds = '[' :: ('[' :: ("REF_".toList ++ (ds ++ "]]".toList))) := by
  simp [phKey]

/-- Helper: the identity mix. -/
theorem mix_refl (pm : List (Str × Str)) : ∀ t, Mix pm t t := by
  intro t
  induction t with
  | nil => exact Mix.nil
  | cons c r ih => exact Mix.char c ih

/-- Helper: a run of citation-class characters at the front of a mixed text
is a literal prefix of the original, and the rest stays mixed. -/
theorem mix_consume (pm : List (Str × Str)) :
    ∀ {w o : Str}, Mix pm w o → ∀ old tail, w = old ++ tail →
      (∀ ch ∈ old, citChar ch = true) →
      ∃ o2, o = old ++ o2 ∧ Mix pm tail o2 := by
  intro w o hmix
  induction hmix with
  | nil =>
    intro old tail he hch
    obtain ⟨h1, h2⟩ := List.append_eq_nil.mp he.symm
    subst h1
    subst h2
    exact ⟨[], rfl, Mix.nil⟩
  | @char c w2 o2 hsub ih =>
    intro old tail he hch
    cases old with
    | nil =>
      simp only [List.nil_append] at he
      exact ⟨c :: o2, rfl, he ▸ Mix.char c hsub⟩
    | cons hc old2 =>
      rw [List.cons_append] at he
      injection he with h1 h2
      obtain ⟨o3, ho, hm3⟩ := ih old2 tail h2
        (fun ch hc2 => hch ch (List.mem_cons_of_mem hc hc2))
      subst h1
      exact ⟨o3, by rw [ho, List.cons_append], hm3⟩
  | @place ds rr w2 o2 hne hdig hlook hsub ih =>
    intro old tail he hch
    cases old with
    | nil =>
      simp only [List.nil_append] at he
      exact ⟨rr ++ o2, rfl, he ▸ Mix.place ds rr hne hdig hlook hsub⟩
    | cons hc old2 =>
      exfalso
      rw [phKey_cons] at he
      rw [List.cons_append] at he
      injection he with h1 _
      have := hch hc (List.mem_cons_self hc old2)
      rw [← h1] at this
      exact absurd this (by decide)

/-- Helper: replaceFirst passes over a segment that contains no opening
parenthesis when the searched string starts with one. -/
theorem replaceFirst_skip (old new : Str) (t : Str) (hhead : old = '(' :: t) :
    ∀ seg w2, (∀ ch ∈ seg, ¬ ch = '(') →
      replaceFirst old new (seg ++ w2) = seg ++ replaceFirst old new w2 := by
  intro seg
  induction seg with
  | nil => intro w2 _; rfl
  | cons c seg2 ih =>
    intro w2 hseg
    rw [List.cons_append, replaceFirst]
    have hnp : old.isPrefixOf (c :: (seg2 ++ w2)) = false := by
      rw [hhead]
      show (('(' == c) && t.isPrefixOf (seg2 ++ w2)) = false
      have : ('(' == c) = false := by
        simp only [beq_eq_false_iff_ne, ne_eq]
        intro hh
        exact hseg c (List.mem_cons_self c seg2) hh.symm
      rw [this, Bool.false_and]
    rw [hnp]
    simp only [Bool.false_eq_true, if_false, List.cons_append]
    rw [ih w2 (fun ch hc2 => hseg ch (List.mem_cons_of_mem c hc2))]

/-- Helper: all characters of the decimal rendering are digits. -/
theorem digitChar_isDigit : ∀ d, (digitChar d).isDigit = true := by
  intro d
  unfold digitChar
  repeat' split
  all_goals decide

/-- Helper: the fuelled rendering produces only digits. -/
theorem natDecimalAux_digits : ∀ f n, ∀ ch ∈ natDecimalAux f n, ch.isDigit = true := by
  intro f
  induction f with
  | zero => intro n ch hch; simp [natDecimalAux] at hch
  | succ f ih =>
    intro n ch hch
    rw [natDecimalAux] at hch
    split at hch
    · simp only [List.mem_singleton] at hch
      subst hch
      exact digitChar_isDigit n
    · rcases List.mem_append.mp hch with h | h
      · exact ih _ ch h
      · simp only [List.mem_singleton] at h
        subst h
        exact digitChar_isDigit _


/-- Helper: all characters of the decimal rendering are digits. -/
theorem natDecimal_digits (n : Nat) : ∀ ch ∈ natDecimal n, ch.isDigit = true :=
  natDecimalAux_digits (n + 1) n

/-- Helper: the decimal rendering is never empty. -/
theorem natDecimal_ne_nil (n : Nat) : ¬ natDecimal n = [] := by
  unfold natDecimal natDecimalAux
  split
  · simp
  · simp

/-- Helper: the placeholder key contains no opening parenthesis. -/
theorem phKey_no_paren (ds : Str) (hdig : ∀ ch ∈ ds, ch.isDigit = true) :
    ∀ ch ∈ phKey ds, ¬ ch = '(' := by
  intro ch hch
  rw [phKey_cons] at hch
  intro hcp
  subst hcp
  rcases List.mem_cons.mp hch with h | h
  · exact absurd h (by decide)
  rcases List.mem_cons.mp h with h | h
  · exact absurd h (by decide)
  rcases List.mem_append.mp h with h | h
  · exact absurd h (by decide)
  rcases List.mem_append.mp h with h | h
  · exact absurd (hdig _ h) (by decide)
  · exact absurd h (by decide)

/-- Helper: replaceFirst of a citation-class string by a placeholder key
preserves the mix relation: the replaced occurrence, when one exists, lies
in a literal region and becomes a mapped placeholder. -/
theorem mix_replaceFirst (pm : List (Str × Str)) :
    ∀ {w o : Str}, Mix pm w o → ∀ old j t, (∀ ch ∈ old, citChar ch = true) →
      old = '(' :: t →
      alookup pm (placeholder j) = some old →
      Mix pm (replaceFirst old (placeholder j) w) o := by
  intro w o hmix
  induction hmix with
  | nil =>
    intro old j t hch hhead hlook
    rw [replaceFirst]
    rw [if_neg (by rw [hhead]; simp)]
    exact Mix.nil
  | @char c w2 o2 hsub ih =>
    intro old j t hch hhead hlook
    rw [replaceFirst]
    by_cases hp : old.isPrefixOf (c :: w2) = true
    · rw [if_pos hp]
      obtain ⟨t2, ht2⟩ := List.isPrefixOf_iff_prefix.mp hp
      have hdrop : (c :: w2).drop old.length = t2 := by
        rw [← ht2, List.drop_left]
      obtain ⟨o3, ho, hm3⟩ := mix_consume pm (Mix.char c hsub) old t2 ht2.symm hch
      rw [hdrop, ho]
      exact Mix.place (natDecimal j) old (natDecimal_ne_nil j) (natDecimal_digits j)
        hlook hm3
    · rw [if_neg hp]
      exact Mix.char c (ih old j t hch hhead hlook)
  | @place ds rr w2 o2 hne hdig hlook2 hsub ih =>
    intro old j t hch hhead hlook
    rw [replaceFirst_skip old (placeholder j) t hhead (phKey ds) w2
      (phKey_no_paren ds hdig)]
    exact Mix.place ds rr hne hdig hlook2 (ih old j t hch hhead hlook)

/-- Helper: enumeration indices are bounded below by the start index. -/
theorem enumFrom_fst_le (l : List Str) (i : Nat) (p : Nat × Str)
    (hp : p ∈ List.enumFrom i l) : i ≤ p.1 := by
  obtain ⟨a, b⟩ := p
  exact (List.mem_enumFrom hp).1

/-- Helper: second components of enumeration members are list members. -/
theorem enumFrom_snd_mem : ∀ (l : List Str) (i : Nat) (p : Nat × Str),
    p ∈ List.enumFrom i l → p.2 ∈ l := by
  intro l
  induction l with
  | nil => intro i p hp; simp [List.enumFrom] at hp
  | cons r rest ih =>
    intro i p hp
    rw [List.enumFrom] at hp
    rcases List.mem_cons.mp hp with he | hm
    · subst he; exact List.mem_cons_self r rest
    · exact List.mem_cons_of_mem r (ih (i + 1) p hm)

/-- Helper: association lookup over the mapped enumeration finds the entry
of each member, since placeholder keys of distinct indices are distinct. -/
theorem alookup_enum (refs : List Str) :
    ∀ (i : Nat) (p : Nat × Str), p ∈ List.enumFrom i refs →
      alookup ((List.enumFrom i refs).map (fun q => (placeholder q.1, q.2)))
        (placeholder p.1) = some p.2 := by
  induction refs with
  | nil => intro i p hp; simp [List.enumFrom] at hp
  | cons r rest ih =>
    intro i p hp
    rw [List.enumFrom] at hp
    rcases List.mem_cons.mp hp with he | hm
    · subst he
      simp [List.enumFrom, alookup]
    · have hgt : i + 1 ≤ p.1 := enumFrom_fst_le rest (i + 1) p hm
      simp only [List.enumFrom, List.map_cons, alookup]
      rw [if_neg ?hne, ih (i + 1) p hm]
      case hne =>
        intro hkey
        have := placeholder_inj hkey
        omega

/-- Helper: the fold of first-occurrence replacements over indexed matches
preserves the mix relation. -/
theorem mix_fold (pm : List (Str × Str)) :
    ∀ (rs : List (Nat × Str)) (t o : Str), Mix pm t o →
      (∀ p ∈ rs, (∀ ch ∈ p.2, citChar ch = true) ∧ (∃ x, p.2 = '(' :: x) ∧
        alookup pm (placeholder p.1) = some p.2) →
      Mix pm (rs.foldl (fun a q => replaceFirst q.2 (placeholder q.1) a) t) o := by
  intro rs
  induction rs with
  | nil => intro t o hm _; simpa using hm
  | cons p rs ih =>
    intro t o hm hall
    simp only [List.foldl_cons]
    obtain ⟨hch, ⟨x, hx⟩, hlook⟩ := hall p (List.mem_cons_self p rs)
    exact ih _ o (mix_replaceFirst pm hm p.2 p.1 x hch hx hlook)
      (fun q hq => hall q (List.mem_cons_of_mem p hq))

/-- Helper: the extraction of citations leaves a mixed text over the
original input. -/
theorem mix_extract (text : Str) :
    Mix (extract_citations text).2 (extract_citations text).1 text := by
  apply mix_fold
  · exact mix_refl _ text
  · intro p hp
    obtain ⟨⟨x, hx⟩, hch⟩ := citFindall_mem text p.2 (enumFrom_snd_mem _ 1 p hp)
    exact ⟨hch, ⟨x, hx⟩, alookup_enum (citFindall text) 1 p hp⟩

/-- Helper: cons normal form of the padded placeholder. -/
theorem paddedPH_cons (ds w1 w2 w3 w4 : Str) :
    paddedPH ds w1 w2 w3 w4 =
      '[' :: (w1 ++ ('[' :: (w2 ++ ("REF_".toList ++
        (ds ++ (w3 ++ (']' :: (w4 ++ [']']))))))))  := by
  simp [paddedPH, List.append_assoc]

/-- Helper: suffixes of an appended pair either live in the right part or
cover it with a non-empty suffix of the left part. -/
theorem suffix_append_cases (a b d : Str) (hd : d <:+ a ++ b) :
    d <:+ b ∨ ∃ a2, a2 <:+ a ∧ ¬ a2 = [] ∧ d = a2 ++ b := by
  obtain ⟨u, hu⟩ := hd
  rcases List.append_eq_append_iff.mp hu with ⟨k, hk1, hk2⟩ | ⟨k, hk1, hk2⟩
  · cases k with
    | nil =>
      left
      rw [List.nil_append] at hk2
      rw [hk2]
    | cons x k2 =>
      right
      exact ⟨x :: k2, ⟨u, hk1.symm⟩, by simp, hk2⟩
  · left
    exact ⟨k, hk2.symm⟩

/-- Helper: every non-empty suffix of the tail of a padded placeholder
satisfies the bracket shape condition. -/
theorem allSuffP_tail (ds w1 w2 w3 w4 : Str) (h1 : allWs w1) (h2 : allWs w2)
    (h3 : allWs w3) (h4 : allWs w4) (hdig : ∀ ch ∈ ds, ch.isDigit = true) :
    AllSuffP (w1 ++ ('[' :: (w2 ++ ("REF_".toList ++
      (ds ++ (w3 ++ (']' :: (w4 ++ [']'])))))))) := by
  intro d hd hne
  have midNoBr : ∀ ch ∈ (w2 ++ ("REF_".toList ++ (ds ++ (w3 ++
      (']' :: (w4 ++ [']'])))))), ¬ ch = '[' := by
    intro ch hch hcp
    subst hcp
    rcases List.mem_append.mp hch with h | h
    · exact absurd (h2 _ h) (by decide)
    rcases List.mem_append.mp h with h | h
    · exact absurd h (by decide)
    rcases List.mem_append.mp h with h | h
    · exact absurd (hdig _ h) (by decide)
    rcases List.mem_append.mp h with h | h
    · exact absurd (h3 _ h) (by decide)
    rcases List.mem_cons.mp h with h | h
    · exact absurd h (by decide)
    rcases List.mem_append.mp h with h | h
    · exact absurd (h4 _ h) (by decide)
    · exact absurd h (by decide)
  have midHead : headNotP (fun c => decide (c = '[')) (w2 ++ ("REF_".toList ++
      (ds ++ (w3 ++ (']' :: (w4 ++ [']'])))))) := by
    cases w2 with
    | nil =>
      show decide ('R' = '[') = false
      rfl
    | cons c t =>
      show decide (c = '[') = false
      have := h2 c (List.mem_cons_self c t)
      simp only [decide_eq_false_iff_not]
      intro hcp
      subst hcp
      exact absurd this (by decide)
  rcases suffix_append_cases w1 _ d hd with hcase | ⟨a2, ha2, hane, hdeq⟩
  · rcases List.suffix_cons_iff.mp hcase with heq | hmid
    · intro rest hrest
      rw [heq] at hrest
      injection hrest with _ h2r
      constructor
      · rw [← h2r]
        simp
      · rw [← h2r]
        exact midHead
    · intro rest hrest
      exfalso
      have : '[' ∈ d := by rw [hrest]; exact List.mem_cons_self _ _
      exact midNoBr '[' (hmid.sublist.mem this) rfl
  · intro rest hrest
    exfalso
    cases a2 with
    | nil => exact hane rfl
    | cons x a3 =>
      rw [hdeq, List.cons_append] at hrest
      injection hrest with hx _
      have hmem : x ∈ w1 := ha2.sublist.mem (List.mem_cons_self x a3)
      rw [hx] at hmem
      exact absurd (h1 _ hmem) (by decide)

/-- Helper: a bracket-shaped string at the front of a mixed text is a
literal prefix of the original text. -/
theorem mix_shape_front (pm : List (Str × Str)) :
    ∀ {w o : Str}, Mix pm w o → ∀ d v, w = d ++ v → AllSuffP d →
      ∃ o2, o = d ++ o2 := by
  intro w o hmix
  induction hmix with
  | nil =>
    intro d v he _
    obtain ⟨h1, _⟩ := List.append_eq_nil.mp he.symm
    subst h1
    exact ⟨[], rfl⟩
  | @char c w2 o2 hsub ih =>
    intro d v he hall
    cases d with
    | nil => exact ⟨c :: o2, rfl⟩
    | cons hc d2 =>
      rw [List.cons_append] at he
      injection he with h1 h2
      obtain ⟨o3, ho⟩ := ih d2 v h2
        (fun e hed hene => hall e (hed.trans (List.suffix_cons hc d2)) hene)
      refine ⟨o3, ?_⟩
      rw [List.cons_append, h1, ho]
  | @place ds rr w2 o2 hne hdig hlook hsub ih =>
    intro d v he hall
    cases d with
    | nil => exact ⟨rr ++ o2, rfl⟩
    | cons hc d2 =>
      exfalso
      rw [phKey_cons, List.cons_append] at he
      injection he with h1 h2
      cases d2 with
      | nil =>
        obtain ⟨hne2, _⟩ := hall [hc] (List.suffix_refl _) (by simp) [] (by rw [h1])
        exact hne2 rfl
      | cons x d3 =>
        rw [List.cons_append] at h2
        injection h2 with h3 _
        obtain ⟨_, hhead⟩ := hall (hc :: x :: d3) (List.suffix_refl _) (by simp)
          (x :: d3) (by rw [h1])
        rw [h3] at hhead
        simp [headNotP] at hhead

/-- Helper: a mixed text over an original with no placeholder-shaped
suffix restores to the original. -/
theorem mix_restore (pm : List (Str × Str)) :
    ∀ {w o : Str}, Mix pm w o → NoPhSuffix o → restore_citations w pm = o := by
  intro w o hmix
  induction hmix with
  | nil => intro _; rfl
  | @char c w2 o2 hsub ih =>
    intro hno
    have hnone : phParse (c :: w2) = none := by
      cases hq : phParse (c :: w2) with
      | none => rfl
      | some p =>
        exfalso
        obtain ⟨ds0, rest0⟩ := p
        obtain ⟨W1, W2, W3, W4, g1, g2, g3, g4, gne, gdig, gshape⟩ :=
          phParse_shape _ _ _ hq
        rw [paddedPH_cons, List.cons_append] at gshape
        injection gshape with gc gtail
        obtain ⟨o3, ho⟩ := mix_shape_front pm hsub _ rest0 gtail
          (allSuffP_tail ds0 W1 W2 W3 W4 g1 g2 g3 g4 gdig)
        have hsome : phParse (c :: o2) = some (ds0, o3) := by
          rw [ho, ← List.cons_append, gc, ← paddedPH_cons]
          exact phParse_padded ds0 W1 W2 W3 W4 o3 g1 g2 g3 g4 gne gdig
        rw [hno _ (List.suffix_refl _)] at hsome
        exact absurd hsome (by simp)
    rw [show restore_citations (c :: w2) pm = subScan (restoreF pm) (c :: w2) from rfl,
      subScan_cons_none _ c w2 (by unfold restoreF; rw [hnone])]
    rw [show subScan (restoreF pm) w2 = restore_citations w2 pm from rfl,
      ih (fun e hed => hno e (hed.trans (List.suffix_cons c o2)))]
  | @place ds rr w2 o2 hne hdig hlook hsub ih =>
    intro hno
    have hkey : phKey ds = paddedPH ds [] [] [] [] := by simp [phKey, paddedPH]
    rw [hkey, restore_at_padded pm ds [] [] [] [] w2 (by decide) (by decide) (by decide)
      (by decide) hne hdig, ← hkey, hlook]
    rw [ih (fun e hed => hno e (hed.trans (List.suffix_append rr o2)))]
    rfl

/-- Helper: absence of placeholder shapes at every drop position gives
absence at every suffix. -/
theorem noPh_of_drops (text : Str)
    (h : ∀ i, i ≤ text.length → phParse (text.drop i) = none) :
    ∀ d, d <:+ text → phParse d = none := by
  intro d hd
  obtain ⟨u, hu⟩ := hd
  have : d = text.drop u.length := by rw [← hu, List.drop_left]
  rw [this]
  exact h u.length (by rw [← hu]; simp)

/-- Claim C10: for every input text containing no substring of the
placeholder shape (the placeholder parse fails on every suffix, so nothing
matches the placeholder pattern even with incidental whitespace between the
brackets), restoring immediately after extracting returns exactly the
original text. -/
theorem c10_extract_restore_id (text : Str)
    (hno : ∀ d, d <:+ text → phParse d = none) :
    restore_citations (extract_citations text).1 (extract_citations text).2 = text :=
  mix_restore _ (mix_extract text) hno

/-- Witness for claim C10: the round-trip theorem applied to a concrete text
with two identical citations and no placeholder shape, the hypothesis
discharged by evaluating the parse at every drop position. -/
theorem c10_extract_restore_id_witness :
    restore_citations
      (extract_citations "a (Smith, 2023) b (Smith, 2023) c".toList).1
      (extract_citations "a (Smith, 2023) b (Smith, 2023) c".toList).2 =
      "a (Smith, 2023) b (Smith, 2023) c".toList := by
  apply c10_extract_restore_id
  apply noPh_of_drops
  decide

end Humanizer
